import Mathlib

/-!
Verification of the fused sparse-Adagrad update kernels
(caffe2/sgd/adagrad_fused_op_gpu.cu).

The four CUDA kernels and their host dispatch are shallow-embedded as pure
Lean functions.  Scalars are modelled by the rationals and the square root
of the update rule is an abstract function parameter (the algebraic
structure of the kernels does not depend on which approximation of the
square root the hardware computes).  The parameter table, the accumulator
table and the weight-gradient output are modelled as total functions from
flat positions to rationals; in-place writes become pointwise function
updates.  Each kernel is embedded through its serialized semantics: one
block (segment) after the other, and inside a block the loop structure of
the source; order-independence theorems relate the different schedules.
-/

namespace AdagradFused

/-- Hyperparameters of the update rule, plus the abstract square root used
in place of the hardware sqrtf. -/
structure Hyper where
  sqrtf : ℚ → ℚ
  lr : ℚ
  epsilon : ℚ
  weight_decay : ℚ

/-- The mutable tables seen by a kernel: the flat parameter table (row r,
element i lives at position r * post + i), the accumulator table
(per element for the exact kernels, per row for the row-wise kernels) and
the weight-gradient output (written at the global member position). -/
@[ext]
structure St where
  param : ℕ → ℚ
  mom : ℕ → ℚ
  wout : ℕ → ℚ

/-- Modelled from the spec: the running-total inclusive scan performed by
cub DeviceScan InclusiveSum, the external primitive that
inclusive_scan_wrapper (source lines 49-77) invokes; the scan
implementation itself is not part of this source tree, and its contract —
entry i of the output is the sum of entries 0..i of the input — is what
the wrapper relies on. -/
def inclusiveScanAux (acc : ℕ) : List ℕ → List ℕ
  | [] => []
  | x :: xs => (acc + x) :: inclusiveScanAux (acc + x) xs

/-- The segment-offset builder (source: inclusive_scan_wrapper, lines
49-77): inclusive prefix sum of the segment lengths. -/
def inclusive_scan_wrapper (lengths : List ℕ) : List ℕ :=
  inclusiveScanAux 0 lengths

/-- Start offset of segment group: 0 for the first segment, otherwise the
previous inclusive-scan entry (source lines 100-102). -/
def segStart (offsets : List ℕ) (group : ℕ) : ℕ :=
  if group = 0 then 0 else offsets.getD (group - 1) 0

/-- End offset of segment group (source line 103). -/
def segEnd (offsets : List ℕ) (group : ℕ) : ℕ :=
  offsets.getD group 0

/-- One (member, element) unit of the unweighted exact kernel (source lines
113-121 and 129-139): effective gradient, per-element accumulator update,
per-element parameter update, in place. -/
def adagradElem (hp : Hyper) (g : ℚ) (paramIdx : ℕ) (s : St) : St :=
  let gi := g + hp.weight_decay * s.param paramIdx
  let mom_new := gi * gi + s.mom paramIdx
  let param_new := hp.lr * gi / (hp.sqrtf mom_new + hp.epsilon) + s.param paramIdx
  { s with mom := Function.update s.mom paramIdx mom_new,
           param := Function.update s.param paramIdx param_new }

/-- Per-segment work of sparse_adagrad_fused_length_sum_gradient_kernel,
serialized (strided branch, source lines 124-141): for each embedding
element, walk the segment members in order.  The ExactBlock branch (lines
107-122) runs the same per-pair updates with elements mapped to lanes; its
serialized semantics per element column is the same member order. -/
def exactSegBody (hp : Hyper) (post : ℕ) (indices : ℕ → ℕ) (grad : ℕ → ℚ)
    (group start fin : ℕ) (s : St) : St :=
  (List.range post).foldl (fun s i =>
    (List.range (fin - start)).foldl (fun s k =>
      adagradElem hp (grad (group * post + i)) (indices (start + k) * post + i) s) s) s

/-- One block of the unweighted exact kernel (source lines 83-143):
segment bounds from the inclusive scan, the two defensive assertions
(start and end offsets at most N), then the segment body.  A failed
assertion aborts the batch, modelled as none. -/
def sparse_adagrad_fused_length_sum_gradient_kernel (hp : Hyper) (N post : ℕ)
    (offsets : List ℕ) (indices : ℕ → ℕ) (grad : ℕ → ℚ) (group : ℕ)
    (s : St) : Option St :=
  let start := segStart offsets group
  let fin := segEnd offsets group
  if start ≤ N ∧ fin ≤ N then
    some (exactSegBody hp post indices grad group start fin s)
  else none

/-- Serialized kernel launch: one block per segment, abort propagates. -/
def launch (len_length : ℕ) (block : ℕ → St → Option St) (s : St) : Option St :=
  (List.range len_length).foldl (fun acc g => acc.bind (block g)) (some s)

/-- Assertion-free run of the unweighted exact kernel over all segments. -/
def exactRun (hp : Hyper) (post : ℕ) (offsets : List ℕ) (indices : ℕ → ℕ)
    (grad : ℕ → ℚ) (len_length : ℕ) (s : St) : St :=
  (List.range len_length).foldl (fun s g =>
    exactSegBody hp post indices grad g (segStart offsets g) (segEnd offsets g) s) s

/-- One member of the weighted exact kernel (source lines 178-221): the
scalar weight w multiplies the incoming gradient; alongside the per-element
updates a weight-gradient w_grad is accumulated from the pre-update
parameter values and finally written to the weight-gradient output at the
global member position line.  The per-element step below carries the
running weight-gradient accumulator alongside the state. -/
def weightedElemStep (hp : Hyper) (post : ℕ) (w : ℚ) (grad : ℕ → ℚ)
    (group index : ℕ) (sw : St × ℚ) (i : ℕ) : St × ℚ :=
  let s := sw.1
  let in_grad_temp := grad (group * post + i)
  let paramIdx := index * post + i
  let w_grad := sw.2 + in_grad_temp * s.param paramIdx
  let out_grad_temp := w * in_grad_temp + hp.weight_decay * s.param paramIdx
  let mom_new := out_grad_temp * out_grad_temp + s.mom paramIdx
  let param_new :=
    hp.lr * out_grad_temp / (hp.sqrtf mom_new + hp.epsilon) + s.param paramIdx
  ({ s with mom := Function.update s.mom paramIdx mom_new,
            param := Function.update s.param paramIdx param_new }, w_grad)

def weightedMemberBody (hp : Hyper) (post : ℕ) (w : ℚ) (grad : ℕ → ℚ)
    (group index line : ℕ) (s : St) : St :=
  let r := (List.range post).foldl (weightedElemStep hp post w grad group index) (s, 0)
  { r.1 with wout := Function.update r.1.wout line r.2 }

/-- Per-segment work of the weighted exact kernel: members in order; the
member weight is read segment-relatively at line - start (source line 192),
with line = start + k. -/
def weightedSegBody (hp : Hyper) (post : ℕ) (indices : ℕ → ℕ) (grad : ℕ → ℚ)
    (weights : ℕ → ℚ) (group start fin : ℕ) (s : St) : St :=
  (List.range (fin - start)).foldl (fun s k =>
    weightedMemberBody hp post (weights (start + k - start)) grad group
      (indices (start + k)) (start + k) s) s

/-- One block of the weighted exact kernel (source lines 149-223),
assertions included. -/
def sparse_adagrad_fused_length_weighted_sum_gradient_kernel (hp : Hyper)
    (N post : ℕ) (offsets : List ℕ) (indices : ℕ → ℕ) (grad weights : ℕ → ℚ)
    (group : ℕ) (s : St) : Option St :=
  let start := segStart offsets group
  let fin := segEnd offsets group
  if start ≤ N ∧ fin ≤ N then
    some (weightedSegBody hp post indices grad weights group start fin s)
  else none

/-- Assertion-free run of the weighted exact kernel over all segments. -/
def weightedRun (hp : Hyper) (post : ℕ) (offsets : List ℕ) (indices : ℕ → ℕ)
    (grad weights : ℕ → ℚ) (len_length : ℕ) (s : St) : St :=
  (List.range len_length).foldl (fun s g =>
    weightedSegBody hp post indices grad weights g (segStart offsets g)
      (segEnd offsets g) s) s

/-- One member of the row-wise unweighted kernel, serialized (strided
branch, source lines 296-327): phase 1 sums the squared effective gradients
over the row, divides by the row width and adds the result to the single
per-row accumulator; phase 2 recomputes each effective gradient and applies
the shared scalar step.  rowSumSquares is the phase-1 reduction (shared
with the weighted row-wise kernel), rowwiseElemStep one phase-2 element
update, rowwiseMemberBody one whole member. -/
def rowSumSquares (hp : Hyper) (post : ℕ) (grad : ℕ → ℚ) (group index : ℕ)
    (pf : ℕ → ℚ) : ℚ :=
  (List.range post).foldl (fun a i =>
    let x_ij := grad (group * post + i) + hp.weight_decay * pf (index * post + i)
    a + x_ij * x_ij) 0

def rowwiseElemStep (hp : Hyper) (post : ℕ) (grad : ℕ → ℚ) (group index : ℕ)
    (step : ℚ) (s : St) (i : ℕ) : St :=
  let paramIdx := index * post + i
  let x_ij := grad (group * post + i) + hp.weight_decay * s.param paramIdx
  { s with param := Function.update s.param paramIdx (s.param paramIdx + x_ij * step) }

def rowwiseMemberBody (hp : Hyper) (post : ℕ) (grad : ℕ → ℚ)
    (group index : ℕ) (s : St) : St :=
  let row_sum_squares_avg := rowSumSquares hp post grad group index s.param / (post : ℚ)
  let mom_new := s.mom index + row_sum_squares_avg
  let s1 : St := { s with mom := Function.update s.mom index mom_new }
  let step := hp.lr / (hp.sqrtf (s1.mom index) + hp.epsilon)
  (List.range post).foldl (rowwiseElemStep hp post grad group index step) s1

/-- Per-segment work of the row-wise unweighted kernel. -/
def rowwiseSegBody (hp : Hyper) (post : ℕ) (indices : ℕ → ℕ) (grad : ℕ → ℚ)
    (group start fin : ℕ) (s : St) : St :=
  (List.range (fin - start)).foldl (fun s k =>
    rowwiseMemberBody hp post grad group (indices (start + k)) s) s

/-- One block of the row-wise unweighted kernel (source lines 229-329),
assertions included. -/
def rowwise_sparse_adagrad_fused_length_sum_gradient_kernel (hp : Hyper)
    (N post : ℕ) (offsets : List ℕ) (indices : ℕ → ℕ) (grad : ℕ → ℚ)
    (group : ℕ) (s : St) : Option St :=
  let start := segStart offsets group
  let fin := segEnd offsets group
  if start ≤ N ∧ fin ≤ N then
    some (rowwiseSegBody hp post indices grad group start fin s)
  else none

/-- Assertion-free run of the row-wise unweighted kernel. -/
def rowwiseRun (hp : Hyper) (post : ℕ) (offsets : List ℕ) (indices : ℕ → ℕ)
    (grad : ℕ → ℚ) (len_length : ℕ) (s : St) : St :=
  (List.range len_length).foldl (fun s g =>
    rowwiseSegBody hp post indices grad g (segStart offsets g) (segEnd offsets g) s) s

/-- One member of the row-wise weighted kernel, serialized (source lines
372-419): the row energy is computed from the unweighted effective
gradients, scaled by w * w before entering the row accumulator; the
per-element update applies the weighted gradient times the shared step; the
weight gradient is accumulated from pre-update parameter values and written
at the global member position. -/
def rowwiseWeightedElemStep (hp : Hyper) (post : ℕ) (w : ℚ) (grad : ℕ → ℚ)
    (group index : ℕ) (step : ℚ) (sw : St × ℚ) (i : ℕ) : St × ℚ :=
  let s := sw.1
  let in_grad_temp := grad (group * post + i)
  let paramIdx := index * post + i
  let w_grad := sw.2 + in_grad_temp * s.param paramIdx
  let out_grad_temp := w * in_grad_temp + hp.weight_decay * s.param paramIdx
  let param_new := out_grad_temp * step + s.param paramIdx
  ({ s with param := Function.update s.param paramIdx param_new }, w_grad)

def rowwiseWeightedMemberBody (hp : Hyper) (post : ℕ) (w : ℚ) (grad : ℕ → ℚ)
    (group index line : ℕ) (s : St) : St :=
  let row_sum_squares_avg := rowSumSquares hp post grad group index s.param / (post : ℚ)
  let s1 : St :=
    { s with mom :=
        Function.update s.mom index (s.mom index + row_sum_squares_avg * w * w) }
  let step := hp.lr / (hp.sqrtf (s1.mom index) + hp.epsilon)
  let r := (List.range post).foldl
    (rowwiseWeightedElemStep hp post w grad group index step) (s1, 0)
  { r.1 with wout := Function.update r.1.wout line r.2 }

/-- Per-segment work of the row-wise weighted kernel; member weight read
segment-relatively at line - start (source line 377), line = start + k. -/
def rowwiseWeightedSegBody (hp : Hyper) (post : ℕ) (indices : ℕ → ℕ)
    (grad weights : ℕ → ℚ) (group start fin : ℕ) (s : St) : St :=
  (List.range (fin - start)).foldl (fun s k =>
    rowwiseWeightedMemberBody hp post (weights (start + k - start)) grad group
      (indices (start + k)) (start + k) s) s

/-- One block of the row-wise weighted kernel (source lines 336-420),
assertions included. -/
def rowwise_sparse_adagrad_fused_length_weighted_sum_gradient_kernel
    (hp : Hyper) (N post : ℕ) (offsets : List ℕ) (indices : ℕ → ℕ)
    (grad weights : ℕ → ℚ) (group : ℕ) (s : St) : Option St :=
  let start := segStart offsets group
  let fin := segEnd offsets group
  if start ≤ N ∧ fin ≤ N then
    some (rowwiseWeightedSegBody hp post indices grad weights group start fin s)
  else none

/-- Assertion-free run of the row-wise weighted kernel. -/
def rowwiseWeightedRun (hp : Hyper) (post : ℕ) (offsets : List ℕ)
    (indices : ℕ → ℕ) (grad weights : ℕ → ℚ) (len_length : ℕ) (s : St) : St :=
  (List.range len_length).foldl (fun s g =>
    rowwiseWeightedSegBody hp post indices grad weights g (segStart offsets g)
      (segEnd offsets g) s) s

/-- Host operator for SparseAdagradFusedWithSparseLengthsSumGradient
(source lines 425-574): empty index array or empty length array returns
success without launching; otherwise the offsets are built by the inclusive
scan and the kernel is launched with N equal to the index-array length
(output_0dim, source lines 489 and 514). -/
def CUDASparseAdagradFusedWithSparseLengthsSumGradientOp (hp : Hyper)
    (post : ℕ) (lengths indices : List ℕ) (grad : ℕ → ℚ) (s : St) : Option St :=
  if indices.length = 0 then some s
  else if lengths.length = 0 then some s
  else
    launch lengths.length
      (sparse_adagrad_fused_length_sum_gradient_kernel hp indices.length post
        (inclusive_scan_wrapper lengths) (fun line => indices.getD line 0) grad) s

/-- Host operator for SparseAdagradFusedWithSparseLengthsWeightedSumGradient
(source lines 577-771): as the unweighted one, and additionally produces
the weight-gradient output, allocated with one entry per index (empty when
the index array is empty, source lines 611-614). -/
def CUDASparseAdagradFusedWithSparseLengthsWeightedSumGradientOp (hp : Hyper)
    (post : ℕ) (lengths indices : List ℕ) (weights grad : ℕ → ℚ) (s : St) :
    Option (St × List ℚ) :=
  if indices.length = 0 then some (s, [])
  else if lengths.length = 0 then some (s, (List.range indices.length).map s.wout)
  else
    (launch lengths.length
      (sparse_adagrad_fused_length_weighted_sum_gradient_kernel hp
        indices.length post (inclusive_scan_wrapper lengths)
        (fun line => indices.getD line 0) grad weights) s).map
      fun s1 => (s1, (List.range indices.length).map s1.wout)

/-- Host operator for RowWiseSparseAdagradFusedWithSparseLengthsSumGradient
(source lines 774-926). -/
def CUDARowWiseSparseAdagradFusedWithSparseLengthsSumGradientOp (hp : Hyper)
    (post : ℕ) (lengths indices : List ℕ) (grad : ℕ → ℚ) (s : St) : Option St :=
  if indices.length = 0 then some s
  else if lengths.length = 0 then some s
  else
    launch lengths.length
      (rowwise_sparse_adagrad_fused_length_sum_gradient_kernel hp
        indices.length post (inclusive_scan_wrapper lengths)
        (fun line => indices.getD line 0) grad) s

/-- Host operator for
RowWiseSparseAdagradFusedWithSparseLengthsWeightedSumGradient (source lines
929-1123). -/
def CUDARowWiseSparseAdagradFusedWithSparseLengthsWeightedSumGradientOp
    (hp : Hyper) (post : ℕ) (lengths indices : List ℕ) (weights grad : ℕ → ℚ)
    (s : St) : Option (St × List ℚ) :=
  if indices.length = 0 then some (s, [])
  else if lengths.length = 0 then some (s, (List.range indices.length).map s.wout)
  else
    (launch lengths.length
      (rowwise_sparse_adagrad_fused_length_weighted_sum_gradient_kernel hp
        indices.length post (inclusive_scan_wrapper lengths)
        (fun line => indices.getD line 0) grad weights) s).map
      fun s1 => (s1, (List.range indices.length).map s1.wout)

/-- Canonical processing order of the batch: all (group, line) member pairs,
segments in order, members of a segment in order. -/
def memberList (lengths : List ℕ) : List (ℕ × ℕ) :=
  (List.range lengths.length).flatMap fun g =>
    (List.range (segEnd (inclusive_scan_wrapper lengths) g -
        segStart (inclusive_scan_wrapper lengths) g)).map fun k =>
      (g, segStart (inclusive_scan_wrapper lengths) g + k)

/-- Sequential reference for the unweighted exact variant: process one
member at a time in the given order, each member updating its whole row. -/
def exactMemberBody (hp : Hyper) (post : ℕ) (grad : ℕ → ℚ)
    (group index : ℕ) (s : St) : St :=
  (List.range post).foldl (fun s i =>
    adagradElem hp (grad (group * post + i)) (index * post + i) s) s

/-- Fold a member-processing order for the unweighted exact reference. -/
def exactSeqRef (hp : Hyper) (post : ℕ) (indices : ℕ → ℕ) (grad : ℕ → ℚ)
    (order : List (ℕ × ℕ)) (s : St) : St :=
  order.foldl (fun s gl =>
    exactMemberBody hp post grad gl.1 (indices gl.2) s) s

/-- Fold a member-processing order for the weighted exact reference; the
member weight is the segment-relative one. -/
def weightedSeqRef (hp : Hyper) (post : ℕ) (offsets : List ℕ)
    (indices : ℕ → ℕ) (grad weights : ℕ → ℚ) (order : List (ℕ × ℕ))
    (s : St) : St :=
  order.foldl (fun s gl =>
    weightedMemberBody hp post (weights (gl.2 - segStart offsets gl.1)) grad
      gl.1 (indices gl.2) gl.2 s) s

/-- Fold a member-processing order for the row-wise unweighted reference. -/
def rowwiseSeqRef (hp : Hyper) (post : ℕ) (indices : ℕ → ℕ) (grad : ℕ → ℚ)
    (order : List (ℕ × ℕ)) (s : St) : St :=
  order.foldl (fun s gl =>
    rowwiseMemberBody hp post grad gl.1 (indices gl.2) s) s

/-- Fold a member-processing order for the row-wise weighted reference. -/
def rowwiseWeightedSeqRef (hp : Hyper) (post : ℕ) (offsets : List ℕ)
    (indices : ℕ → ℕ) (grad weights : ℕ → ℚ) (order : List (ℕ × ℕ))
    (s : St) : St :=
  order.foldl (fun s gl =>
    rowwiseWeightedMemberBody hp post (weights (gl.2 - segStart offsets gl.1))
      grad gl.1 (indices gl.2) gl.2 s) s

/-- Positions of row r in the flat tables: r * post + i for i < post. -/
def inRow (r post q : ℕ) : Prop := r * post ≤ q ∧ q < r * post + post

instance (r post q : ℕ) : Decidable (inRow r post q) := by
  unfold inRow; infer_instance

/-- A state transformer is local to the footprint (P, Q, R) when it writes
the parameter table only inside P, the accumulator only inside Q and the
weight-gradient output only inside R, and its writes are determined by the
reads inside the same footprint.  One member update of every kernel variant
is local to its row's footprint; members touching different rows therefore
commute. -/
def LocalTo (f : St → St) (P Q R : ℕ → Prop) : Prop :=
  (∀ s q, ¬ P q → (f s).param q = s.param q) ∧
  (∀ s q, ¬ Q q → (f s).mom q = s.mom q) ∧
  (∀ s q, ¬ R q → (f s).wout q = s.wout q) ∧
  (∀ s t, (∀ q, P q → s.param q = t.param q) → (∀ q, Q q → s.mom q = t.mom q) →
    (∀ q, R q → s.wout q = t.wout q) →
    (∀ q, P q → (f s).param q = (f t).param q) ∧
    (∀ q, Q q → (f s).mom q = (f t).mom q) ∧
    (∀ q, R q → (f s).wout q = (f t).wout q))

/-- Accumulator value written by one element of the weighted exact kernel
(source line 209), as a function of the weight, the incoming gradient value
and the previous parameter and accumulator values. -/
def wMomNew (hp : Hyper) (w gv p m : ℚ) : ℚ :=
  (w * gv + hp.weight_decay * p) * (w * gv + hp.weight_decay * p) + m

/-- Parameter value written by one element of the weighted exact kernel
(source lines 211-213). -/
def wParamNew (hp : Hyper) (w gv p m : ℚ) : ℚ :=
  hp.lr * (w * gv + hp.weight_decay * p) / (hp.sqrtf (wMomNew hp w gv p m) + hp.epsilon) + p

/-- Accumulator value written by one element of the unweighted exact kernel
(source line 118). -/
def eMomNew (hp : Hyper) (gv p m : ℚ) : ℚ :=
  (gv + hp.weight_decay * p) * (gv + hp.weight_decay * p) + m

/-- Parameter value written by one element of the unweighted exact kernel
(source line 120). -/
def eParamNew (hp : Hyper) (gv p m : ℚ) : ℚ :=
  hp.lr * (gv + hp.weight_decay * p) / (hp.sqrtf (eMomNew hp gv p m) + hp.epsilon) + p

/-- Sample hyperparameters for concrete instantiations: the identity in
place of the square root, learning rate 1, epsilon 1, weight decay 0. -/
def hpSample : Hyper := ⟨id, 1, 1, 0⟩

/-- Sample state: all three tables zero. -/
def stSample : St := ⟨fun _ => 0, fun _ => 0, fun _ => 0⟩

/-- Sample gradient input: constant 1. -/
def gradSample : ℕ → ℚ := fun _ => 1

/-- Sample member weights: constant 2. -/
def weightsSample : ℕ → ℚ := fun _ => 2

theorem inclusiveScanAux_length (acc : ℕ) (l : List ℕ) :
    (inclusiveScanAux acc l).length = l.length := by
  induction l generalizing acc with
  | nil => rfl
  | cons x xs ih => simp [inclusiveScanAux, ih]

theorem inclusiveScanAux_getD (l : List ℕ) :
    ∀ (acc i : ℕ), i < l.length →
      (inclusiveScanAux acc l).getD i 0 = acc + (l.take (i + 1)).sum := by
  induction l with
  | nil => intro acc i h; simp at h
  | cons x xs ih =>
    intro acc i h
    cases i with
    | zero => simp [inclusiveScanAux]
    | succ j =>
      have hj : j < xs.length := by simpa using h
      simp only [inclusiveScanAux, List.getD_cons_succ, List.take_succ_cons,
        List.sum_cons]
      rw [ih (acc + x) j hj]
      ring

theorem inclusive_scan_wrapper_getD (l : List ℕ) (i : ℕ) (h : i < l.length) :
    (inclusive_scan_wrapper l).getD i 0 = (l.take (i + 1)).sum := by
  simpa using inclusiveScanAux_getD l 0 i h

theorem inclusive_scan_wrapper_length (l : List ℕ) :
    (inclusive_scan_wrapper l).length = l.length :=
  inclusiveScanAux_length 0 l

theorem segStart_eq_take_sum (l : List ℕ) (g : ℕ) (hg : g < l.length) :
    segStart (inclusive_scan_wrapper l) g = (l.take g).sum := by
  unfold segStart
  rcases Nat.eq_zero_or_pos g with h0 | h0
  · simp [h0]
  · have hne : ¬ g = 0 := by omega
    have hlt : g - 1 < l.length := by omega
    rw [if_neg hne, inclusive_scan_wrapper_getD l (g - 1) hlt]
    have : g - 1 + 1 = g := by omega
    rw [this]

theorem segEnd_eq_take_sum (l : List ℕ) (g : ℕ) (hg : g < l.length) :
    segEnd (inclusive_scan_wrapper l) g = (l.take (g + 1)).sum := by
  unfold segEnd
  exact inclusive_scan_wrapper_getD l g hg

theorem take_sum_le_sum (l : List ℕ) (n : ℕ) : (l.take n).sum ≤ l.sum := by
  conv_rhs => rw [← List.take_append_drop n l]
  rw [List.sum_append]
  omega

theorem take_sum_mono (l : List ℕ) {m n : ℕ} (h : m ≤ n) :
    (l.take m).sum ≤ (l.take n).sum := by
  have : l.take m = (l.take n).take m := by
    rw [List.take_take, Nat.min_eq_left h]
  rw [this]
  exact take_sum_le_sum _ _

theorem take_succ_sum (l : List ℕ) (i : ℕ) (h : i < l.length) :
    (l.take (i + 1)).sum = (l.take i).sum + l.getD i 0 := by
  rw [List.take_succ, List.sum_append]
  have : l.get? i = some l[i] := by
    rw [List.get?_eq_getElem?, List.getElem?_eq_getElem h]
  simp [this, List.getD_eq_getElem?_getD, List.getElem?_eq_getElem h]

theorem segEnd_le_sum (l : List ℕ) (g : ℕ) (hg : g < l.length) :
    segEnd (inclusive_scan_wrapper l) g ≤ l.sum := by
  rw [segEnd_eq_take_sum l g hg]
  exact take_sum_le_sum _ _

theorem segStart_le_segEnd (l : List ℕ) (g : ℕ) (hg : g < l.length) :
    segStart (inclusive_scan_wrapper l) g ≤ segEnd (inclusive_scan_wrapper l) g := by
  rw [segStart_eq_take_sum l g hg, segEnd_eq_take_sum l g hg]
  exact take_sum_mono _ (Nat.le_succ g)

/-- C3: for every sequence of non-negative segment lengths, the
segment-offset builder produces an inclusive prefix sum: one offset per
length, offsets i equal to the sum of lengths 0..i, non-decreasing,
consecutive differences recovering the lengths, the last offset equal to
the total member count, and segment g covering the member range from
segStart g (the sum of the lengths before g, 0 for g = 0) to segEnd g
(the sum of the lengths up to and including g). -/
theorem offset_builder_is_inclusive_prefix_sum (l : List ℕ) :
    (inclusive_scan_wrapper l).length = l.length ∧
    (∀ i, i < l.length →
      (inclusive_scan_wrapper l).getD i 0 = (l.take (i + 1)).sum) ∧
    (∀ i j, i ≤ j → j < l.length →
      (inclusive_scan_wrapper l).getD i 0 ≤ (inclusive_scan_wrapper l).getD j 0) ∧
    (∀ i, 1 ≤ i → i < l.length →
      (inclusive_scan_wrapper l).getD i 0 -
          (inclusive_scan_wrapper l).getD (i - 1) 0 = l.getD i 0 ∧
      (inclusive_scan_wrapper l).getD i 0 =
          (inclusive_scan_wrapper l).getD (i - 1) 0 + l.getD i 0) ∧
    (l ≠ [] → (inclusive_scan_wrapper l).getD (l.length - 1) 0 = l.sum) ∧
    (∀ g, g < l.length →
      segStart (inclusive_scan_wrapper l) g = (l.take g).sum ∧
      segEnd (inclusive_scan_wrapper l) g = (l.take (g + 1)).sum) := by
  refine ⟨inclusive_scan_wrapper_length l, fun i hi => inclusive_scan_wrapper_getD l i hi,
    ?_, ?_, ?_, fun g hg => ⟨segStart_eq_take_sum l g hg, segEnd_eq_take_sum l g hg⟩⟩
  · intro i j hij hj
    rw [inclusive_scan_wrapper_getD l i (lt_of_le_of_lt hij hj),
      inclusive_scan_wrapper_getD l j hj]
    exact take_sum_mono l (by omega)
  · intro i h1 hi
    have hi' : i - 1 < l.length := by omega
    have hadd : (inclusive_scan_wrapper l).getD i 0 =
        (inclusive_scan_wrapper l).getD (i - 1) 0 + l.getD i 0 := by
      rw [inclusive_scan_wrapper_getD l i hi, inclusive_scan_wrapper_getD l (i - 1) hi']
      have : i - 1 + 1 = i := by omega
      rw [this, take_succ_sum l i hi]
    exact ⟨by omega, hadd⟩
  · intro hne
    have hlen : 0 < l.length := List.length_pos.mpr hne
    have h1 : l.length - 1 < l.length := by omega
    rw [inclusive_scan_wrapper_getD l (l.length - 1) h1]
    have : l.length - 1 + 1 = l.length := by omega
    rw [this, List.take_length]

theorem foldl_add_eq_add_sum (f : ℕ → ℚ) :
    ∀ (n : ℕ) (c : ℚ),
      (List.range n).foldl (fun a i => a + f i) c = c + ∑ i ∈ Finset.range n, f i := by
  intro n
  induction n with
  | zero => intro c; simp
  | succ m ih =>
    intro c
    rw [List.range_succ, List.foldl_append, ih c]
    simp [Finset.sum_range_succ, add_assoc]

theorem rowSumSquares_eq_sum (hp : Hyper) (post : ℕ) (grad : ℕ → ℚ)
    (group index : ℕ) (pf : ℕ → ℚ) :
    rowSumSquares hp post grad group index pf =
      ∑ i ∈ Finset.range post,
        (grad (group * post + i) + hp.weight_decay * pf (index * post + i)) *
          (grad (group * post + i) + hp.weight_decay * pf (index * post + i)) := by
  show (List.range post).foldl
      (fun a i => a +
        (grad (group * post + i) + hp.weight_decay * pf (index * post + i)) *
          (grad (group * post + i) + hp.weight_decay * pf (index * post + i))) 0 = _
  rw [foldl_add_eq_add_sum, zero_add]

theorem rowSumSquares_congr (hp : Hyper) (post : ℕ) (grad : ℕ → ℚ)
    (group index : ℕ) {pf pf' : ℕ → ℚ}
    (h : ∀ i, i < post → pf (index * post + i) = pf' (index * post + i)) :
    rowSumSquares hp post grad group index pf =
      rowSumSquares hp post grad group index pf' := by
  rw [rowSumSquares_eq_sum, rowSumSquares_eq_sum]
  exact Finset.sum_congr rfl fun i hi => by rw [h i (Finset.mem_range.mp hi)]

theorem weightedFold_aux (hp : Hyper) (post : ℕ) (w : ℚ) (grad : ℕ → ℚ)
    (g r : ℕ) : ∀ (n : ℕ) (t : St) (c : ℚ),
    (List.range n).foldl (weightedElemStep hp post w grad g r) (t, c) =
    ({ param := fun q => if r * post ≤ q ∧ q < r * post + n then
          wParamNew hp w (grad (g * post + (q - r * post))) (t.param q) (t.mom q)
        else t.param q,
       mom := fun q => if r * post ≤ q ∧ q < r * post + n then
          wMomNew hp w (grad (g * post + (q - r * post))) (t.param q) (t.mom q)
        else t.mom q,
       wout := t.wout },
     c + ∑ i ∈ Finset.range n, grad (g * post + i) * t.param (r * post + i)) := by
  intro n
  induction n with
  | zero =>
    intro t c
    simp only [List.range_zero, List.foldl_nil, Finset.range_zero,
      Finset.sum_empty, add_zero]
    refine Prod.ext ?_ rfl
    apply St.ext <;> funext q <;>
      simp only [] <;> rw [if_neg (by omega)]
  | succ m ih =>
    intro t c
    rw [List.range_succ, List.foldl_append, ih t c]
    simp only [List.foldl_cons, List.foldl_nil, weightedElemStep]
    have hedge : ¬ (r * post ≤ r * post + m ∧ r * post + m < r * post + m) := by omega
    refine Prod.ext ?_ ?_
    · apply St.ext
      · funext q
        simp only []
        by_cases hq : q = r * post + m
        · subst hq
          rw [Function.update_same, if_neg hedge, if_neg hedge, if_pos (by omega),
            Nat.add_sub_cancel_left]
          rfl
        · rw [Function.update_noteq hq]
          by_cases hc : r * post ≤ q ∧ q < r * post + m
          · rw [if_pos hc, if_pos (by omega)]
          · rw [if_neg hc, if_neg (by omega)]
      · funext q
        simp only []
        by_cases hq : q = r * post + m
        · subst hq
          rw [Function.update_same, if_neg hedge, if_neg hedge, if_pos (by omega),
            Nat.add_sub_cancel_left]
          rfl
        · rw [Function.update_noteq hq]
          by_cases hc : r * post ≤ q ∧ q < r * post + m
          · rw [if_pos hc, if_pos (by omega)]
          · rw [if_neg hc, if_neg (by omega)]
      · rfl
    · simp only []
      rw [if_neg hedge, Finset.sum_range_succ]
      ring

theorem rowwiseFold_aux (hp : Hyper) (post : ℕ) (grad : ℕ → ℚ) (g r : ℕ)
    (step : ℚ) : ∀ (n : ℕ) (t : St),
    (List.range n).foldl (rowwiseElemStep hp post grad g r step) t =
    { param := fun q => if r * post ≤ q ∧ q < r * post + n then
        t.param q + (grad (g * post + (q - r * post)) + hp.weight_decay * t.param q) * step
      else t.param q,
      mom := t.mom,
      wout := t.wout } := by
  intro n
  induction n with
  | zero =>
    intro t
    simp only [List.range_zero, List.foldl_nil]
    apply St.ext
    · funext q; simp only []; rw [if_neg (by omega)]
    · rfl
    · rfl
  | succ m ih =>
    intro t
    rw [List.range_succ, List.foldl_append, ih t]
    simp only [List.foldl_cons, List.foldl_nil, rowwiseElemStep]
    have hedge : ¬ (r * post ≤ r * post + m ∧ r * post + m < r * post + m) := by omega
    apply St.ext
    · funext q
      simp only []
      by_cases hq : q = r * post + m
      · subst hq
        rw [Function.update_same, if_neg hedge, if_pos (by omega),
          Nat.add_sub_cancel_left]
      · rw [Function.update_noteq hq]
        by_cases hc : r * post ≤ q ∧ q < r * post + m
        · rw [if_pos hc, if_pos (by omega)]
        · rw [if_neg hc, if_neg (by omega)]
    · rfl
    · rfl

theorem rowwiseWeightedFold_aux (hp : Hyper) (post : ℕ) (w : ℚ) (grad : ℕ → ℚ)
    (g r : ℕ) (step : ℚ) : ∀ (n : ℕ) (t : St) (c : ℚ),
    (List.range n).foldl (rowwiseWeightedElemStep hp post w grad g r step) (t, c) =
    ({ param := fun q => if r * post ≤ q ∧ q < r * post + n then
        (w * grad (g * post + (q - r * post)) + hp.weight_decay * t.param q) * step + t.param q
      else t.param q,
       mom := t.mom,
       wout := t.wout },
     c + ∑ i ∈ Finset.range n, grad (g * post + i) * t.param (r * post + i)) := by
  intro n
  induction n with
  | zero =>
    intro t c
    simp only [List.range_zero, List.foldl_nil, Finset.range_zero,
      Finset.sum_empty, add_zero]
    refine Prod.ext ?_ rfl
    apply St.ext
    · funext q; simp only []; rw [if_neg (by omega)]
    · rfl
    · rfl
  | succ m ih =>
    intro t c
    rw [List.range_succ, List.foldl_append, ih t c]
    simp only [List.foldl_cons, List.foldl_nil, rowwiseWeightedElemStep]
    have hedge : ¬ (r * post ≤ r * post + m ∧ r * post + m < r * post + m) := by omega
    refine Prod.ext ?_ ?_
    · apply St.ext
      · funext q
        simp only []
        by_cases hq : q = r * post + m
        · subst hq
          rw [Function.update_same, if_neg hedge, if_pos (by omega),
            Nat.add_sub_cancel_left]
        · rw [Function.update_noteq hq]
          by_cases hc : r * post ≤ q ∧ q < r * post + m
          · rw [if_pos hc, if_pos (by omega)]
          · rw [if_neg hc, if_neg (by omega)]
      · rfl
      · rfl
    · simp only []
      rw [if_neg hedge, Finset.sum_range_succ]
      ring

theorem exactFold_aux (hp : Hyper) (post : ℕ) (grad : ℕ → ℚ) (g r : ℕ) :
    ∀ (n : ℕ) (t : St),
    (List.range n).foldl (fun s i =>
        adagradElem hp (grad (g * post + i)) (r * post + i) s) t =
    { param := fun q => if r * post ≤ q ∧ q < r * post + n then
        eParamNew hp (grad (g * post + (q - r * post))) (t.param q) (t.mom q)
      else t.param q,
      mom := fun q => if r * post ≤ q ∧ q < r * post + n then
        eMomNew hp (grad (g * post + (q - r * post))) (t.param q) (t.mom q)
      else t.mom q,
      wout := t.wout } := by
  intro n
  induction n with
  | zero =>
    intro t
    simp only [List.range_zero, List.foldl_nil]
    apply St.ext <;> first
      | rfl
      | (funext q; simp only []; rw [if_neg (by omega)])
  | succ m ih =>
    intro t
    rw [List.range_succ, List.foldl_append, ih t]
    simp only [List.foldl_cons, List.foldl_nil, adagradElem]
    have hedge : ¬ (r * post ≤ r * post + m ∧ r * post + m < r * post + m) := by omega
    apply St.ext
    · funext q
      simp only []
      by_cases hq : q = r * post + m
      · subst hq
        rw [Function.update_same, if_neg hedge, if_neg hedge, if_pos (by omega),
          Nat.add_sub_cancel_left]
        rfl
      · rw [Function.update_noteq hq]
        by_cases hc : r * post ≤ q ∧ q < r * post + m
        · rw [if_pos hc, if_pos (by omega)]
        · rw [if_neg hc, if_neg (by omega)]
    · funext q
      simp only []
      by_cases hq : q = r * post + m
      · subst hq
        rw [Function.update_same, if_neg hedge, if_neg hedge, if_pos (by omega),
          Nat.add_sub_cancel_left]
        rfl
      · rw [Function.update_noteq hq]
        by_cases hc : r * post ≤ q ∧ q < r * post + m
        · rw [if_pos hc, if_pos (by omega)]
        · rw [if_neg hc, if_neg (by omega)]
    · rfl

theorem exactMemberBody_closed (hp : Hyper) (post : ℕ) (grad : ℕ → ℚ)
    (g r : ℕ) (s : St) :
    exactMemberBody hp post grad g r s =
    { param := fun q => if r * post ≤ q ∧ q < r * post + post then
        eParamNew hp (grad (g * post + (q - r * post))) (s.param q) (s.mom q)
      else s.param q,
      mom := fun q => if r * post ≤ q ∧ q < r * post + post then
        eMomNew hp (grad (g * post + (q - r * post))) (s.param q) (s.mom q)
      else s.mom q,
      wout := s.wout } := by
  exact exactFold_aux hp post grad g r post s

theorem weightedMemberBody_closed (hp : Hyper) (post : ℕ) (w : ℚ)
    (grad : ℕ → ℚ) (g r line : ℕ) (s : St) :
    weightedMemberBody hp post w grad g r line s =
    { param := fun q => if r * post ≤ q ∧ q < r * post + post then
        wParamNew hp w (grad (g * post + (q - r * post))) (s.param q) (s.mom q)
      else s.param q,
      mom := fun q => if r * post ≤ q ∧ q < r * post + post then
        wMomNew hp w (grad (g * post + (q - r * post))) (s.param q) (s.mom q)
      else s.mom q,
      wout := Function.update s.wout line
        (∑ i ∈ Finset.range post, grad (g * post + i) * s.param (r * post + i)) } := by
  simp only [weightedMemberBody]
  rw [weightedFold_aux hp post w grad g r post s 0]
  simp only [zero_add]

theorem rowwiseMemberBody_closed (hp : Hyper) (post : ℕ) (grad : ℕ → ℚ)
    (g r : ℕ) (s : St) :
    rowwiseMemberBody hp post grad g r s =
    { param := fun q => if r * post ≤ q ∧ q < r * post + post then
        s.param q + (grad (g * post + (q - r * post)) + hp.weight_decay * s.param q) *
          (hp.lr / (hp.sqrtf (s.mom r + rowSumSquares hp post grad g r s.param / (post : ℚ)) +
            hp.epsilon))
      else s.param q,
      mom := Function.update s.mom r
        (s.mom r + rowSumSquares hp post grad g r s.param / (post : ℚ)),
      wout := s.wout } := by
  simp only [rowwiseMemberBody, Function.update_same]
  rw [rowwiseFold_aux]

theorem rowwiseWeightedMemberBody_closed (hp : Hyper) (post : ℕ) (w : ℚ)
    (grad : ℕ → ℚ) (g r line : ℕ) (s : St) :
    rowwiseWeightedMemberBody hp post w grad g r line s =
    { param := fun q => if r * post ≤ q ∧ q < r * post + post then
        (w * grad (g * post + (q - r * post)) + hp.weight_decay * s.param q) *
          (hp.lr / (hp.sqrtf (s.mom r +
            rowSumSquares hp post grad g r s.param / (post : ℚ) * w * w) + hp.epsilon)) +
          s.param q
      else s.param q,
      mom := Function.update s.mom r
        (s.mom r + rowSumSquares hp post grad g r s.param / (post : ℚ) * w * w),
      wout := Function.update s.wout line
        (∑ i ∈ Finset.range post, grad (g * post + i) * s.param (r * post + i)) } := by
  simp only [rowwiseWeightedMemberBody, Function.update_same]
  rw [rowwiseWeightedFold_aux hp post w grad g r _ post _ 0]
  simp only [zero_add]

theorem foldl_flatMap {α β γ : Type*} (f : α → List β) (step : γ → β → γ) :
    ∀ (l : List α) (c : γ),
      (l.flatMap f).foldl step c = l.foldl (fun c a => (f a).foldl step c) c := by
  intro l
  induction l with
  | nil => intro c; rfl
  | cons a as ih =>
    intro c
    simp only [List.flatMap_cons, List.foldl_append, List.foldl_cons]
    exact ih _

theorem foldl_perm_of_comm {α γ : Type*} {l₁ l₂ : List α} (p : l₁.Perm l₂)
    {step : γ → α → γ}
    (h : ∀ x ∈ l₁, ∀ y ∈ l₁, ∀ c, step (step c x) y = step (step c y) x) :
    ∀ c, l₁.foldl step c = l₂.foldl step c := by
  induction p with
  | nil => intro c; rfl
  | cons a _ ih =>
    intro c
    simp only [List.foldl_cons]
    exact ih (fun x hx y hy => h x (List.mem_cons_of_mem a hx) y
      (List.mem_cons_of_mem a hy)) _
  | swap x y l =>
    intro c
    simp only [List.foldl_cons]
    rw [h y (by simp) x (by simp) c]
  | trans p₁ _ ih₁ ih₂ =>
    intro c
    rw [ih₁ h c]
    exact ih₂ (fun x hx y hy => h x (p₁.mem_iff.mpr hx) y (p₁.mem_iff.mpr hy)) c

theorem atomLists_perm (n m : ℕ) :
    ((List.range m).flatMap fun i => (List.range n).map fun k => ((k, i) : ℕ × ℕ)).Perm
      ((List.range n).flatMap fun k => (List.range m).map fun i => ((k, i) : ℕ × ℕ)) := by
  have hnodup1 : ((List.range m).flatMap fun i =>
      (List.range n).map fun k => ((k, i) : ℕ × ℕ)).Nodup := by
    rw [List.nodup_flatMap]
    constructor
    · intro i _
      refine (List.nodup_range n).map ?_
      intro a b hab
      simpa using hab
    refine List.Pairwise.imp ?_ (List.nodup_range m)
    intro i j hij a ha hb
    simp only [List.mem_map, List.mem_range] at ha hb
    obtain ⟨k1, hk1, rfl⟩ := ha
    obtain ⟨k2, hk2, h2⟩ := hb
    exact hij (congrArg Prod.snd h2).symm
  have hnodup2 : ((List.range n).flatMap fun k =>
      (List.range m).map fun i => ((k, i) : ℕ × ℕ)).Nodup := by
    rw [List.nodup_flatMap]
    constructor
    · intro k _
      refine (List.nodup_range m).map ?_
      intro a b hab
      simpa using hab
    refine List.Pairwise.imp ?_ (List.nodup_range n)
    intro i j hij a ha hb
    simp only [List.mem_map, List.mem_range] at ha hb
    obtain ⟨k1, hk1, rfl⟩ := ha
    obtain ⟨k2, hk2, h2⟩ := hb
    exact hij (congrArg Prod.fst h2).symm
  rw [List.perm_ext_iff_of_nodup hnodup1 hnodup2]
  intro a
  simp only [List.mem_flatMap, List.mem_map, List.mem_range]
  constructor
  · rintro ⟨i, hi, k, hk, rfl⟩
    exact ⟨k, hk, i, hi, rfl⟩
  · rintro ⟨k, hk, i, hi, rfl⟩
    exact ⟨i, hi, k, hk, rfl⟩

theorem foldl_range_swap {γ : Type*} (F : γ → ℕ × ℕ → γ) (n m : ℕ)
    (hcomm : ∀ a b : ℕ × ℕ, a.1 < n → a.2 < m → b.1 < n → b.2 < m →
      ∀ c, F (F c a) b = F (F c b) a) :
    ∀ c, (List.range m).foldl
        (fun c i => (List.range n).foldl (fun c k => F c (k, i)) c) c =
      (List.range n).foldl
        (fun c k => (List.range m).foldl (fun c i => F c (k, i)) c) c := by
  intro c
  have h1 : ((List.range m).flatMap fun i =>
      (List.range n).map fun k => ((k, i) : ℕ × ℕ)).foldl F c =
      (List.range m).foldl
        (fun c i => (List.range n).foldl (fun c k => F c (k, i)) c) c := by
    rw [foldl_flatMap]
    simp only [List.foldl_map]
  have h2 : ((List.range n).flatMap fun k =>
      (List.range m).map fun i => ((k, i) : ℕ × ℕ)).foldl F c =
      (List.range n).foldl
        (fun c k => (List.range m).foldl (fun c i => F c (k, i)) c) c := by
    rw [foldl_flatMap]
    simp only [List.foldl_map]
  rw [← h1, ← h2]
  refine foldl_perm_of_comm (atomLists_perm n m) ?_ c
  intro x hx y hy c
  simp only [List.mem_flatMap, List.mem_map, List.mem_range] at hx hy
  obtain ⟨i1, hi1, k1, hk1, rfl⟩ := hx
  obtain ⟨i2, hi2, k2, hk2, rfl⟩ := hy
  exact hcomm _ _ hk1 hi1 hk2 hi2 c

theorem adagradElem_comm (hp : Hyper) (g1 g2 : ℚ) {p1 p2 : ℕ} (hne : p1 ≠ p2)
    (s : St) :
    adagradElem hp g2 p2 (adagradElem hp g1 p1 s) =
      adagradElem hp g1 p1 (adagradElem hp g2 p2 s) := by
  simp only [adagradElem, Function.update_noteq hne, Function.update_noteq (Ne.symm hne)]
  apply St.ext
  · exact Function.update_comm hne _ _ _
  · exact Function.update_comm hne _ _ _
  · rfl

theorem rowPos_inj {post : ℕ} {r1 r2 i1 i2 : ℕ} (h1 : i1 < post)
    (h2 : i2 < post) (h : r1 * post + i1 = r2 * post + i2) :
    r1 = r2 ∧ i1 = i2 := by
  have key : r1 = r2 := by
    by_contra hne
    rcases Nat.lt_or_ge r1 r2 with hlt | hge
    · have h3 : r1 * post + post ≤ r2 * post := by
        have := Nat.mul_le_mul_right post (Nat.succ_le_of_lt hlt)
        simpa [Nat.succ_mul] using this
      omega
    · have hlt2 : r2 < r1 := by omega
      have h3 : r2 * post + post ≤ r1 * post := by
        have := Nat.mul_le_mul_right post (Nat.succ_le_of_lt hlt2)
        simpa [Nat.succ_mul] using this
      omega
  subst key
  omega

theorem rowWindow_disjoint {post r1 r2 q : ℕ} (hne : r1 ≠ r2)
    (hq1 : r1 * post ≤ q ∧ q < r1 * post + post) :
    ¬ (r2 * post ≤ q ∧ q < r2 * post + post) := by
  intro hq2
  rcases Nat.lt_or_ge r1 r2 with hlt | hge
  · have h3 : r1 * post + post ≤ r2 * post := by
      have := Nat.mul_le_mul_right post (Nat.succ_le_of_lt hlt)
      simpa [Nat.succ_mul] using this
    omega
  · have hlt2 : r2 < r1 := by omega
    have h3 : r2 * post + post ≤ r1 * post := by
      have := Nat.mul_le_mul_right post (Nat.succ_le_of_lt hlt2)
      simpa [Nat.succ_mul] using this
    omega

theorem mem_memberList {lengths : List ℕ} {g line : ℕ} :
    (g, line) ∈ memberList lengths ↔
      g < lengths.length ∧
        segStart (inclusive_scan_wrapper lengths) g ≤ line ∧
        line < segEnd (inclusive_scan_wrapper lengths) g := by
  simp only [memberList, List.mem_flatMap, List.mem_map, List.mem_range]
  constructor
  · rintro ⟨g', hg', k, hk, heq⟩
    rw [Prod.mk.injEq] at heq
    obtain ⟨rfl, rfl⟩ := heq
    have hse := segStart_le_segEnd lengths g' hg'
    exact ⟨hg', by omega, by omega⟩
  · rintro ⟨hg, h1, h2⟩
    refine ⟨g, hg, line - segStart (inclusive_scan_wrapper lengths) g, by omega, ?_⟩
    rw [Prod.mk.injEq]
    exact ⟨rfl, by omega⟩

theorem memberList_line_lt_sum {lengths : List ℕ} {g line : ℕ}
    (h : (g, line) ∈ memberList lengths) : line < lengths.sum := by
  obtain ⟨hg, _, h2⟩ := mem_memberList.mp h
  exact lt_of_lt_of_le h2 (segEnd_le_sum lengths g hg)

theorem memberList_line_injective {lengths : List ℕ} {x y : ℕ × ℕ}
    (hx : x ∈ memberList lengths) (hy : y ∈ memberList lengths)
    (hline : x.2 = y.2) : x = y := by
  obtain ⟨g1, l1⟩ := x
  obtain ⟨g2, l2⟩ := y
  obtain ⟨hg1, ha1, hb1⟩ := mem_memberList.mp hx
  obtain ⟨hg2, ha2, hb2⟩ := mem_memberList.mp hy
  simp only at hline
  subst hline
  rcases Nat.lt_trichotomy g1 g2 with hlt | heq | hgt
  · exfalso
    have : segEnd (inclusive_scan_wrapper lengths) g1 ≤
        segStart (inclusive_scan_wrapper lengths) g2 := by
      rw [segEnd_eq_take_sum lengths g1 hg1, segStart_eq_take_sum lengths g2 hg2]
      exact take_sum_mono lengths (by omega)
    omega
  · simp [heq]
  · exfalso
    have : segEnd (inclusive_scan_wrapper lengths) g2 ≤
        segStart (inclusive_scan_wrapper lengths) g1 := by
      rw [segEnd_eq_take_sum lengths g2 hg2, segStart_eq_take_sum lengths g1 hg1]
      exact take_sum_mono lengths (by omega)
    omega

theorem foldl_congr_mem {α γ : Type*} {f g : γ → α → γ} :
    ∀ {l : List α}, (∀ a ∈ l, ∀ c, f c a = g c a) →
      ∀ c, l.foldl f c = l.foldl g c := by
  intro l
  induction l with
  | nil => intro _ c; rfl
  | cons a as ih =>
    intro h c
    simp only [List.foldl_cons]
    rw [h a (by simp) c]
    exact ih (fun x hx c => h x (List.mem_cons_of_mem a hx) c) _

theorem weightedRun_eq_seqRef (hp : Hyper) (post : ℕ) (lengths : List ℕ)
    (indices : ℕ → ℕ) (grad weights : ℕ → ℚ) (s : St) :
    weightedRun hp post (inclusive_scan_wrapper lengths) indices grad weights
      lengths.length s =
    weightedSeqRef hp post (inclusive_scan_wrapper lengths) indices grad weights
      (memberList lengths) s := by
  simp only [weightedRun, weightedSegBody, weightedSeqRef, memberList]
  rw [foldl_flatMap]
  simp only [List.foldl_map]

theorem rowwiseRun_eq_seqRef (hp : Hyper) (post : ℕ) (lengths : List ℕ)
    (indices : ℕ → ℕ) (grad : ℕ → ℚ) (s : St) :
    rowwiseRun hp post (inclusive_scan_wrapper lengths) indices grad
      lengths.length s =
    rowwiseSeqRef hp post indices grad (memberList lengths) s := by
  simp only [rowwiseRun, rowwiseSegBody, rowwiseSeqRef, memberList]
  rw [foldl_flatMap]
  simp only [List.foldl_map]

theorem rowwiseWeightedRun_eq_seqRef (hp : Hyper) (post : ℕ) (lengths : List ℕ)
    (indices : ℕ → ℕ) (grad weights : ℕ → ℚ) (s : St) :
    rowwiseWeightedRun hp post (inclusive_scan_wrapper lengths) indices grad
      weights lengths.length s =
    rowwiseWeightedSeqRef hp post (inclusive_scan_wrapper lengths) indices grad
      weights (memberList lengths) s := by
  simp only [rowwiseWeightedRun, rowwiseWeightedSegBody, rowwiseWeightedSeqRef,
    memberList]
  rw [foldl_flatMap]
  simp only [List.foldl_map]

theorem exactSegBody_eq_memberFold (hp : Hyper) (post : ℕ) (indices : ℕ → ℕ)
    (grad : ℕ → ℚ) (group start fin : ℕ)
    (hdist : ∀ k1 k2, k1 < fin - start → k2 < fin - start → k1 ≠ k2 →
      indices (start + k1) ≠ indices (start + k2)) (s : St) :
    exactSegBody hp post indices grad group start fin s =
      (List.range (fin - start)).foldl (fun s k =>
        exactMemberBody hp post grad group (indices (start + k)) s) s := by
  unfold exactSegBody
  have hswap := foldl_range_swap
    (fun s a => adagradElem hp (grad (group * post + a.2))
      (indices (start + a.1) * post + a.2) s)
    (fin - start) post ?_ s
  · exact hswap
  · intro a b hk1 hi1 hk2 hi2 c
    by_cases hab : a = b
    · subst hab; rfl
    · refine adagradElem_comm hp _ _ ?_ c
      intro heq
      obtain ⟨hr, hi⟩ := rowPos_inj hi1 hi2 heq
      by_cases hk : a.1 = b.1
      · exact hab (Prod.ext hk hi)
      · exact hdist a.1 b.1 hk1 hk2 hk hr

theorem exactRun_eq_seqRef (hp : Hyper) (post : ℕ) (lengths : List ℕ)
    (indices : ℕ → ℕ) (grad : ℕ → ℚ) (s : St)
    (hdist : ∀ l1 l2, l1 < lengths.sum → l2 < lengths.sum →
      indices l1 = indices l2 → l1 = l2) :
    exactRun hp post (inclusive_scan_wrapper lengths) indices grad
      lengths.length s =
    exactSeqRef hp post indices grad (memberList lengths) s := by
  simp only [exactSeqRef, memberList]
  rw [foldl_flatMap]
  simp only [List.foldl_map]
  unfold exactRun
  refine foldl_congr_mem ?_ s
  intro g hg c
  simp only [List.mem_range] at hg
  refine exactSegBody_eq_memberFold hp post indices grad g _ _ ?_ c
  intro k1 k2 hk1 hk2 hk hidx
  have hse := segStart_le_segEnd lengths g hg
  have hle := segEnd_le_sum lengths g hg
  have h1 : segStart (inclusive_scan_wrapper lengths) g + k1 < lengths.sum := by omega
  have h2 : segStart (inclusive_scan_wrapper lengths) g + k2 < lengths.sum := by omega
  have := hdist _ _ h1 h2 hidx
  omega

theorem LocalTo.comm {f g : St → St} {P1 Q1 R1 P2 Q2 R2 : ℕ → Prop}
    (hf : LocalTo f P1 Q1 R1) (hg : LocalTo g P2 Q2 R2)
    (hP : ∀ q, P1 q → ¬ P2 q) (hQ : ∀ q, Q1 q → ¬ Q2 q)
    (hR : ∀ q, R1 q → ¬ R2 q) (s : St) :
    g (f s) = f (g s) := by
  obtain ⟨hfp, hfm, hfo, hfr⟩ := hf
  obtain ⟨hgp, hgm, hgo, hgr⟩ := hg
  have hfr' := hfr s (g s)
    (fun q hq => (hgp s q (hP q hq)).symm)
    (fun q hq => (hgm s q (hQ q hq)).symm)
    (fun q hq => (hgo s q (hR q hq)).symm)
  have hgr' := hgr s (f s)
    (fun q hq => (hfp s q (fun h1 => hP q h1 hq)).symm)
    (fun q hq => (hfm s q (fun h1 => hQ q h1 hq)).symm)
    (fun q hq => (hfo s q (fun h1 => hR q h1 hq)).symm)
  apply St.ext
  · funext q
    by_cases h1 : P1 q
    · rw [hgp (f s) q (hP q h1), hfr'.1 q h1]
    · by_cases h2 : P2 q
      · rw [hfp (g s) q h1, ← hgr'.1 q h2]
      · rw [hgp (f s) q h2, hfp s q h1, hfp (g s) q h1, hgp s q h2]
  · funext q
    by_cases h1 : Q1 q
    · rw [hgm (f s) q (hQ q h1), hfr'.2.1 q h1]
    · by_cases h2 : Q2 q
      · rw [hfm (g s) q h1, ← hgr'.2.1 q h2]
      · rw [hgm (f s) q h2, hfm s q h1, hfm (g s) q h1, hgm s q h2]
  · funext q
    by_cases h1 : R1 q
    · rw [hgo (f s) q (hR q h1), hfr'.2.2 q h1]
    · by_cases h2 : R2 q
      · rw [hfo (g s) q h1, ← hgr'.2.2 q h2]
      · rw [hgo (f s) q h2, hfo s q h1, hfo (g s) q h1, hgo s q h2]

theorem exactMemberBody_localTo (hp : Hyper) (post : ℕ) (grad : ℕ → ℚ)
    (g r : ℕ) :
    LocalTo (exactMemberBody hp post grad g r)
      (fun q => r * post ≤ q ∧ q < r * post + post)
      (fun q => r * post ≤ q ∧ q < r * post + post)
      (fun _ => False) := by
  refine ⟨?_, ?_, ?_, ?_⟩
  · intro s q hq
    simp only [exactMemberBody_closed]
    exact if_neg hq
  · intro s q hq
    simp only [exactMemberBody_closed]
    exact if_neg hq
  · intro s q _
    simp only [exactMemberBody_closed]
  · intro s t hP hQ _
    refine ⟨?_, ?_, fun q hq => hq.elim⟩
    · intro q hq
      simp only [exactMemberBody_closed]
      rw [if_pos hq, if_pos hq, hP q hq, hQ q hq]
    · intro q hq
      simp only [exactMemberBody_closed]
      rw [if_pos hq, if_pos hq, hP q hq, hQ q hq]

theorem weightedMemberBody_localTo (hp : Hyper) (post : ℕ) (w : ℚ)
    (grad : ℕ → ℚ) (g r line : ℕ) :
    LocalTo (weightedMemberBody hp post w grad g r line)
      (fun q => r * post ≤ q ∧ q < r * post + post)
      (fun q => r * post ≤ q ∧ q < r * post + post)
      (fun q => q = line) := by
  refine ⟨?_, ?_, ?_, ?_⟩
  · intro s q hq
    simp only [weightedMemberBody_closed]
    exact if_neg hq
  · intro s q hq
    simp only [weightedMemberBody_closed]
    exact if_neg hq
  · intro s q hq
    simp only [weightedMemberBody_closed]
    exact Function.update_noteq hq _ _
  · intro s t hP hQ _
    refine ⟨?_, ?_, ?_⟩
    · intro q hq
      simp only [weightedMemberBody_closed]
      rw [if_pos hq, if_pos hq, hP q hq, hQ q hq]
    · intro q hq
      simp only [weightedMemberBody_closed]
      rw [if_pos hq, if_pos hq, hP q hq, hQ q hq]
    · intro q hq
      subst hq
      simp only [weightedMemberBody_closed, Function.update_same]
      refine Finset.sum_congr rfl fun i hi => ?_
      have hi' := Finset.mem_range.mp hi
      rw [hP (r * post + i) ⟨by omega, by omega⟩]

theorem rowwiseMemberBody_localTo (hp : Hyper) (post : ℕ) (grad : ℕ → ℚ)
    (g r : ℕ) :
    LocalTo (rowwiseMemberBody hp post grad g r)
      (fun q => r * post ≤ q ∧ q < r * post + post)
      (fun q => q = r)
      (fun _ => False) := by
  refine ⟨?_, ?_, ?_, ?_⟩
  · intro s q hq
    simp only [rowwiseMemberBody_closed]
    exact if_neg hq
  · intro s q hq
    simp only [rowwiseMemberBody_closed]
    exact Function.update_noteq hq _ _
  · intro s q _
    simp only [rowwiseMemberBody_closed]
  · intro s t hP hQ _
    have hss : rowSumSquares hp post grad g r s.param =
        rowSumSquares hp post grad g r t.param := by
      refine rowSumSquares_congr hp post grad g r fun i hi => ?_
      exact hP _ ⟨by omega, by omega⟩
    have hmr : s.mom r = t.mom r := hQ r rfl
    refine ⟨?_, ?_, fun q hq => hq.elim⟩
    · intro q hq
      simp only [rowwiseMemberBody_closed]
      rw [if_pos hq, if_pos hq, hP q hq, hss, hmr]
    · intro q hq
      subst hq
      simp only [rowwiseMemberBody_closed, Function.update_same]
      rw [hss, hmr]

theorem rowwiseWeightedMemberBody_localTo (hp : Hyper) (post : ℕ) (w : ℚ)
    (grad : ℕ → ℚ) (g r line : ℕ) :
    LocalTo (rowwiseWeightedMemberBody hp post w grad g r line)
      (fun q => r * post ≤ q ∧ q < r * post + post)
      (fun q => q = r)
      (fun q => q = line) := by
  refine ⟨?_, ?_, ?_, ?_⟩
  · intro s q hq
    simp only [rowwiseWeightedMemberBody_closed]
    exact if_neg hq
  · intro s q hq
    simp only [rowwiseWeightedMemberBody_closed]
    exact Function.update_noteq hq _ _
  · intro s q hq
    simp only [rowwiseWeightedMemberBody_closed]
    exact Function.update_noteq hq _ _
  · intro s t hP hQ _
    have hss : rowSumSquares hp post grad g r s.param =
        rowSumSquares hp post grad g r t.param := by
      refine rowSumSquares_congr hp post grad g r fun i hi => ?_
      exact hP _ ⟨by omega, by omega⟩
    have hmr : s.mom r = t.mom r := hQ r rfl
    refine ⟨?_, ?_, ?_⟩
    · intro q hq
      simp only [rowwiseWeightedMemberBody_closed]
      rw [if_pos hq, if_pos hq, hP q hq, hss, hmr]
    · intro q hq
      subst hq
      simp only [rowwiseWeightedMemberBody_closed, Function.update_same]
      rw [hss, hmr]
    · intro q hq
      subst hq
      simp only [rowwiseWeightedMemberBody_closed, Function.update_same]
      refine Finset.sum_congr rfl fun i hi => ?_
      have hi' := Finset.mem_range.mp hi
      rw [hP (r * post + i) ⟨by omega, by omega⟩]

/-- C1: when all index values across the batch are pairwise distinct, each
of the four fused kernels produces exactly the state (parameter table,
accumulator table and, for the weighted variants, weight-gradient output)
of a sequential reference that processes the batch one member at a time, in
ANY order of the batch's (segment, member) pairs; in particular the result
is independent of the processing order.  The fused runs process segments in
block order with the loop structure of the source; the reference folds an
arbitrary permutation of the canonical member list. -/
theorem fused_kernels_match_sequential_reference (hp : Hyper) (post : ℕ)
    (lengths : List ℕ) (indices : ℕ → ℕ) (grad weights : ℕ → ℚ) (s : St)
    (hdist : ∀ l1 l2, l1 < lengths.sum → l2 < lengths.sum →
      indices l1 = indices l2 → l1 = l2) :
    ∀ order : List (ℕ × ℕ), order.Perm (memberList lengths) →
      exactSeqRef hp post indices grad order s =
        exactRun hp post (inclusive_scan_wrapper lengths) indices grad
          lengths.length s ∧
      weightedSeqRef hp post (inclusive_scan_wrapper lengths) indices grad
          weights order s =
        weightedRun hp post (inclusive_scan_wrapper lengths) indices grad
          weights lengths.length s ∧
      rowwiseSeqRef hp post indices grad order s =
        rowwiseRun hp post (inclusive_scan_wrapper lengths) indices grad
          lengths.length s ∧
      rowwiseWeightedSeqRef hp post (inclusive_scan_wrapper lengths) indices
          grad weights order s =
        rowwiseWeightedRun hp post (inclusive_scan_wrapper lengths) indices
          grad weights lengths.length s := by
  intro order hperm
  have hrow : ∀ x ∈ order, ∀ y ∈ order, x ≠ y → indices x.2 ≠ indices y.2 := by
    intro x hx y hy hxy heq
    have hx' := hperm.mem_iff.mp hx
    have hy' := hperm.mem_iff.mp hy
    exact hxy (memberList_line_injective hx' hy'
      (hdist _ _ (memberList_line_lt_sum hx') (memberList_line_lt_sum hy') heq))
  have hline : ∀ x ∈ order, ∀ y ∈ order, x ≠ y → x.2 ≠ y.2 := by
    intro x hx y hy hxy heq
    exact hxy (memberList_line_injective (hperm.mem_iff.mp hx)
      (hperm.mem_iff.mp hy) heq)
  refine ⟨?_, ?_, ?_, ?_⟩
  · rw [exactRun_eq_seqRef hp post lengths indices grad s hdist]
    unfold exactSeqRef
    refine foldl_perm_of_comm hperm ?_ s
    intro x hx y hy c
    by_cases hxy : x = y
    · subst hxy; rfl
    · exact LocalTo.comm (exactMemberBody_localTo hp post grad x.1 (indices x.2))
        (exactMemberBody_localTo hp post grad y.1 (indices y.2))
        (fun q hq => rowWindow_disjoint (hrow x hx y hy hxy) hq)
        (fun q hq => rowWindow_disjoint (hrow x hx y hy hxy) hq)
        (fun q hq => hq.elim) c
  · rw [weightedRun_eq_seqRef hp post lengths indices grad weights s]
    unfold weightedSeqRef
    refine foldl_perm_of_comm hperm ?_ s
    intro x hx y hy c
    by_cases hxy : x = y
    · subst hxy; rfl
    · exact LocalTo.comm
        (weightedMemberBody_localTo hp post
          (weights (x.2 - segStart (inclusive_scan_wrapper lengths) x.1)) grad
          x.1 (indices x.2) x.2)
        (weightedMemberBody_localTo hp post
          (weights (y.2 - segStart (inclusive_scan_wrapper lengths) y.1)) grad
          y.1 (indices y.2) y.2)
        (fun q hq => rowWindow_disjoint (hrow x hx y hy hxy) hq)
        (fun q hq => rowWindow_disjoint (hrow x hx y hy hxy) hq)
        (fun q hq hq2 => hline x hx y hy hxy (hq ▸ hq2)) c
  · rw [rowwiseRun_eq_seqRef hp post lengths indices grad s]
    unfold rowwiseSeqRef
    refine foldl_perm_of_comm hperm ?_ s
    intro x hx y hy c
    by_cases hxy : x = y
    · subst hxy; rfl
    · exact LocalTo.comm
        (rowwiseMemberBody_localTo hp post grad x.1 (indices x.2))
        (rowwiseMemberBody_localTo hp post grad y.1 (indices y.2))
        (fun q hq => rowWindow_disjoint (hrow x hx y hy hxy) hq)
        (fun q hq hq2 => hrow x hx y hy hxy (hq ▸ hq2))
        (fun q hq => hq.elim) c
  · rw [rowwiseWeightedRun_eq_seqRef hp post lengths indices grad weights s]
    unfold rowwiseWeightedSeqRef
    refine foldl_perm_of_comm hperm ?_ s
    intro x hx y hy c
    by_cases hxy : x = y
    · subst hxy; rfl
    · exact LocalTo.comm
        (rowwiseWeightedMemberBody_localTo hp post
          (weights (x.2 - segStart (inclusive_scan_wrapper lengths) x.1)) grad
          x.1 (indices x.2) x.2)
        (rowwiseWeightedMemberBody_localTo hp post
          (weights (y.2 - segStart (inclusive_scan_wrapper lengths) y.1)) grad
          y.1 (indices y.2) y.2)
        (fun q hq => rowWindow_disjoint (hrow x hx y hy hxy) hq)
        (fun q hq hq2 => hrow x hx y hy hxy (hq ▸ hq2))
        (fun q hq hq2 => hline x hx y hy hxy (hq ▸ hq2)) c

theorem launch_succ (block : ℕ → St → Option St) (n : ℕ) (s : St) :
    launch (n + 1) block s = (launch n block s).bind (block n) := by
  unfold launch
  rw [List.range_succ, List.foldl_append]
  rfl

theorem launch_eq_of_ok {block : ℕ → St → Option St} {body : ℕ → St → St} :
    ∀ (len : ℕ), (∀ g, g < len → ∀ s, block g s = some (body g s)) →
      ∀ s, launch len block s =
        some ((List.range len).foldl (fun s g => body g s) s) := by
  intro len
  induction len with
  | zero => intro _ s; rfl
  | succ n ih =>
    intro h s
    rw [launch_succ, ih (fun g hg => h g (by omega)) s, Option.some_bind,
      h n (by omega), List.range_succ, List.foldl_append]
    rfl

theorem launch_isSome_iff {block : ℕ → St → Option St} {A : ℕ → Prop}
    (h : ∀ g s, (block g s).isSome ↔ A g) :
    ∀ (len : ℕ) (s : St), (launch len block s).isSome ↔ ∀ g, g < len → A g := by
  intro len
  induction len with
  | zero =>
    intro s
    simp only [launch, List.range_zero, List.foldl_nil, Option.isSome_some]
    simp
  | succ n ih =>
    intro s
    rw [launch_succ]
    cases hO : launch n block s with
    | none =>
      simp only [Option.none_bind, Option.isSome_none]
      constructor
      · intro hfalse; cases hfalse
      · intro hall
        have : (launch n block s).isSome := (ih s).mpr fun g hg => hall g (by omega)
        rw [hO] at this
        cases this
    | some u =>
      simp only [Option.some_bind]
      rw [h n u]
      constructor
      · intro hA g hg
        rcases Nat.lt_or_ge g n with hlt | hge
        · have : (launch n block s).isSome := by rw [hO]; rfl
          exact ((ih s).mp this) g hlt
        · have : g = n := by omega
          rwa [this]
      · intro hall
        exact hall n (by omega)

theorem launch_preserve {block : ℕ → St → Option St} {Φ : St → Prop}
    (h : ∀ g s t, block g s = some t → Φ s → Φ t) :
    ∀ (len : ℕ) (s t : St), launch len block s = some t → Φ s → Φ t := by
  intro len
  induction len with
  | zero =>
    intro s t hst hs
    simp only [launch, List.range_zero, List.foldl_nil, Option.some.injEq] at hst
    rwa [← hst]
  | succ n ih =>
    intro s t hst hs
    rw [launch_succ] at hst
    cases hO : launch n block s with
    | none => rw [hO] at hst; cases hst
    | some u =>
      rw [hO, Option.some_bind] at hst
      exact h n u t hst (ih s u hO hs)

/-- C9: a batch with no segments, or with all segment lengths zero (so that
the index array is empty), is a valid no-op for all four operators: the
call reports success, the parameter and accumulator tables are returned
unchanged, no kernel block runs, and the weighted variants produce an empty
weight-gradient output. -/
theorem zero_length_batch_is_noop (hp : Hyper) (post : ℕ)
    (lengths indices : List ℕ) (grad weights : ℕ → ℚ) (s : St)
    (hz : lengths = [] ∨ ∀ l ∈ lengths, l = 0)
    (hM : indices.length = lengths.sum) :
    CUDASparseAdagradFusedWithSparseLengthsSumGradientOp hp post lengths indices
        grad s = some s ∧
    CUDASparseAdagradFusedWithSparseLengthsWeightedSumGradientOp hp post lengths
        indices weights grad s = some (s, []) ∧
    CUDARowWiseSparseAdagradFusedWithSparseLengthsSumGradientOp hp post lengths
        indices grad s = some s ∧
    CUDARowWiseSparseAdagradFusedWithSparseLengthsWeightedSumGradientOp hp post
        lengths indices weights grad s = some (s, []) := by
  have hlen : indices.length = 0 := by
    rcases hz with h | h
    · rw [h] at hM; simpa using hM
    · rw [List.sum_eq_zero h] at hM; exact hM
  refine ⟨?_, ?_, ?_, ?_⟩ <;>
    simp [CUDASparseAdagradFusedWithSparseLengthsSumGradientOp,
      CUDASparseAdagradFusedWithSparseLengthsWeightedSumGradientOp,
      CUDARowWiseSparseAdagradFusedWithSparseLengthsSumGradientOp,
      CUDARowWiseSparseAdagradFusedWithSparseLengthsWeightedSumGradientOp, hlen]

/-- C2: for the exact unweighted operator, a single segment with a single
member over a one-element row (post = 1) with weight decay 0 updates the
touched position ix exactly to a' = a + g * g and
p' = p + lr * g / (sqrtf a' + epsilon); and in general each
(member, element) unit adds the squared effective gradient
g + weight_decay * p to that element's accumulator and
lr * effective_grad / (sqrtf new_accumulator + epsilon) to the parameter
element, in place, touching no other position. -/
theorem exact_single_member_update (hp : Hyper) (hwd : hp.weight_decay = 0)
    (ix : ℕ) (grad : ℕ → ℚ) (s : St) :
    CUDASparseAdagradFusedWithSparseLengthsSumGradientOp hp 1 [1] [ix] grad s =
      some { s with
        mom := Function.update s.mom ix (s.mom ix + grad 0 * grad 0),
        param := Function.update s.param ix (s.param ix +
          hp.lr * grad 0 / (hp.sqrtf (s.mom ix + grad 0 * grad 0) + hp.epsilon)) } ∧
    (∀ (gv : ℚ) (p : ℕ) (t : St),
      (adagradElem hp gv p t).mom p =
        t.mom p + (gv + hp.weight_decay * t.param p) *
          (gv + hp.weight_decay * t.param p) ∧
      (adagradElem hp gv p t).param p =
        t.param p + hp.lr * (gv + hp.weight_decay * t.param p) /
          (hp.sqrtf (t.mom p + (gv + hp.weight_decay * t.param p) *
            (gv + hp.weight_decay * t.param p)) + hp.epsilon) ∧
      (∀ q, q ≠ p → (adagradElem hp gv p t).mom q = t.mom q ∧
        (adagradElem hp gv p t).param q = t.param q)) := by
  constructor
  · unfold CUDASparseAdagradFusedWithSparseLengthsSumGradientOp
    rw [if_neg (by simp), if_neg (by simp)]
    have hL : ([1] : List ℕ).length = 0 + 1 := rfl
    rw [hL, launch_succ]
    have h0 : launch 0 (sparse_adagrad_fused_length_sum_gradient_kernel hp
        ([ix] : List ℕ).length 1 (inclusive_scan_wrapper [1])
        (fun line => ([ix] : List ℕ).getD line 0) grad) s = some s := rfl
    rw [h0, Option.some_bind]
    unfold sparse_adagrad_fused_length_sum_gradient_kernel
    have hks : segStart (inclusive_scan_wrapper [1]) 0 = 0 := rfl
    have hke : segEnd (inclusive_scan_wrapper [1]) 0 = 1 := rfl
    rw [if_pos (by simp [hks, hke])]
    congr 1
    rw [hks, hke]
    unfold exactSegBody
    have hrange : List.range 1 = [0] := rfl
    simp only [Nat.sub_zero, hrange, List.foldl_cons, List.foldl_nil,
      Nat.zero_add, Nat.add_zero, Nat.mul_one, List.getD_cons_zero]
    unfold adagradElem
    rw [hwd]
    apply St.ext
    · funext q
      simp only []
      by_cases hq : q = ix
      · subst hq
        rw [Function.update_same, Function.update_same]
        ring_nf
      · rw [Function.update_noteq hq, Function.update_noteq hq]
    · funext q
      simp only []
      by_cases hq : q = ix
      · subst hq
        rw [Function.update_same, Function.update_same]
        ring_nf
      · rw [Function.update_noteq hq, Function.update_noteq hq]
    · rfl
  · intro gv p t
    refine ⟨?_, ?_, fun q hq => ⟨?_, ?_⟩⟩
    · simp only [adagradElem, Function.update_same]
      ring
    · simp only [adagradElem, Function.update_same]
      ring_nf
    · simp only [adagradElem]
      exact Function.update_noteq hq _ _
    · simp only [adagradElem]
      exact Function.update_noteq hq _ _

/-- C6 amended: the defensive assertions inside each kernel block check
only that the segment's start and end offsets are at most N, where N is the
value the host passes to the kernel — the length of the index array
(output_0dim), not the parameter table's row count.  A launch aborts
exactly when some segment's offsets violate those bounds (for all four
kernel variants), and the assertions never examine index values: whether
the batch aborts does not depend on the index array or on the tables at
all, so an out-of-range index value proceeds without triggering anything
(in particular any index, N - 1 or otherwise, never fires an assertion). -/
theorem kernel_assertions_check_offsets_only (hp : Hyper) (N post len : ℕ)
    (offsets : List ℕ) (indices : ℕ → ℕ) (grad weights : ℕ → ℚ) (s : St) :
    ((launch len (sparse_adagrad_fused_length_sum_gradient_kernel hp N post
        offsets indices grad) s).isSome ↔
      ∀ g, g < len → segStart offsets g ≤ N ∧ segEnd offsets g ≤ N) ∧
    ((launch len (sparse_adagrad_fused_length_weighted_sum_gradient_kernel hp
        N post offsets indices grad weights) s).isSome ↔
      ∀ g, g < len → segStart offsets g ≤ N ∧ segEnd offsets g ≤ N) ∧
    ((launch len (rowwise_sparse_adagrad_fused_length_sum_gradient_kernel hp
        N post offsets indices grad) s).isSome ↔
      ∀ g, g < len → segStart offsets g ≤ N ∧ segEnd offsets g ≤ N) ∧
    ((launch len (rowwise_sparse_adagrad_fused_length_weighted_sum_gradient_kernel
        hp N post offsets indices grad weights) s).isSome ↔
      ∀ g, g < len → segStart offsets g ≤ N ∧ segEnd offsets g ≤ N) ∧
    (∀ (indices2 : ℕ → ℕ) (s2 : St),
      (launch len (sparse_adagrad_fused_length_sum_gradient_kernel hp N post
          offsets indices grad) s).isSome =
      (launch len (sparse_adagrad_fused_length_sum_gradient_kernel hp N post
          offsets indices2 grad) s2).isSome) := by
  have hb1 : ∀ (ind : ℕ → ℕ) (g : ℕ) (t : St),
      ((sparse_adagrad_fused_length_sum_gradient_kernel hp N post offsets ind
        grad g t).isSome ↔
        segStart offsets g ≤ N ∧ segEnd offsets g ≤ N) := by
    intro ind g t
    by_cases h : segStart offsets g ≤ N ∧ segEnd offsets g ≤ N <;>
      simp [sparse_adagrad_fused_length_sum_gradient_kernel, h]
  have hb2 : ∀ (g : ℕ) (t : St),
      ((sparse_adagrad_fused_length_weighted_sum_gradient_kernel hp N post
        offsets indices grad weights g t).isSome ↔
        segStart offsets g ≤ N ∧ segEnd offsets g ≤ N) := by
    intro g t
    by_cases h : segStart offsets g ≤ N ∧ segEnd offsets g ≤ N <;>
      simp [sparse_adagrad_fused_length_weighted_sum_gradient_kernel, h]
  have hb3 : ∀ (g : ℕ) (t : St),
      ((rowwise_sparse_adagrad_fused_length_sum_gradient_kernel hp N post
        offsets indices grad g t).isSome ↔
        segStart offsets g ≤ N ∧ segEnd offsets g ≤ N) := by
    intro g t
    by_cases h : segStart offsets g ≤ N ∧ segEnd offsets g ≤ N <;>
      simp [rowwise_sparse_adagrad_fused_length_sum_gradient_kernel, h]
  have hb4 : ∀ (g : ℕ) (t : St),
      ((rowwise_sparse_adagrad_fused_length_weighted_sum_gradient_kernel hp N
        post offsets indices grad weights g t).isSome ↔
        segStart offsets g ≤ N ∧ segEnd offsets g ≤ N) := by
    intro g t
    by_cases h : segStart offsets g ≤ N ∧ segEnd offsets g ≤ N <;>
      simp [rowwise_sparse_adagrad_fused_length_weighted_sum_gradient_kernel, h]
  refine ⟨launch_isSome_iff (fun g t => hb1 indices g t) len s,
    launch_isSome_iff hb2 len s, launch_isSome_iff hb3 len s,
    launch_isSome_iff hb4 len s, ?_⟩
  intro indices2 s2
  have hA := launch_isSome_iff (fun g t => hb1 indices g t) len s
  have hB := launch_isSome_iff (fun g t => hb1 indices2 g t) len s2
  by_cases hc : ∀ g, g < len → segStart offsets g ≤ N ∧ segEnd offsets g ≤ N
  · rw [hA.mpr hc, hB.mpr hc]
  · have h1 : ¬ ((launch len (sparse_adagrad_fused_length_sum_gradient_kernel
        hp N post offsets indices grad) s).isSome = true) := fun h => hc (hA.mp h)
    have h2 : ¬ ((launch len (sparse_adagrad_fused_length_sum_gradient_kernel
        hp N post offsets indices2 grad) s2).isSome = true) := fun h => hc (hB.mp h)
    rw [Bool.not_eq_true] at h1 h2
    rw [h1, h2]

/-- C6 counterexample: one segment of length 1 whose single index value is
7.  The kernel is launched with N equal to the index-array length, 1, so
the index value 7 is outside the valid row interval (7 is not below 1, and
exceeds the last row of any 1-row parameter table), yet the claimed
defensive assertion does not fire: the call completes (isSome) instead of
aborting the batch. -/
theorem index_out_of_range_does_not_abort :
    ¬ (7 < 1) ∧
    (CUDASparseAdagradFusedWithSparseLengthsSumGradientOp
      ⟨id, 1, 1, 0⟩ 1 [1] [7] (fun _ => 1)
      ⟨fun _ => 0, fun _ => 0, fun _ => 0⟩).isSome = true := by
  exact ⟨by decide, rfl⟩

theorem foldl_fix_proj {α : Type*} {step : St → α → St} (f : St → ℚ) :
    ∀ (l : List α), (∀ a ∈ l, ∀ t : St, f (step t a) = f t) →
      ∀ t : St, f (l.foldl step t) = f t := by
  intro l
  induction l with
  | nil => intro _ t; rfl
  | cons a as ih =>
    intro h t
    simp only [List.foldl_cons]
    exact (ih (fun x hx => h x (List.mem_cons_of_mem a hx)) (step t a)).trans
      (h a (by simp) t)

theorem notWindow_of_noPos {w post q : ℕ}
    (hq : ∀ i, i < post → w * post + i ≠ q) :
    ¬ (w * post ≤ q ∧ q < w * post + post) := by
  intro hwin
  exact hq (q - w * post) (by omega) (by omega)

theorem exactSegBody_fix (hp : Hyper) (post : ℕ) (ind : ℕ → ℕ) (grad : ℕ → ℚ)
    (group start fin : ℕ) (q : ℕ)
    (hq : ∀ k, k < fin - start → ∀ i, i < post → ind (start + k) * post + i ≠ q)
    (t : St) :
    (exactSegBody hp post ind grad group start fin t).param q = t.param q ∧
      (exactSegBody hp post ind grad group start fin t).mom q = t.mom q := by
  unfold exactSegBody
  have hInner : ∀ (f : St → ℚ),
      (∀ p : ℕ, p ≠ q → ∀ gv t', f (adagradElem hp gv p t') = f t') →
      ∀ i ∈ List.range post, ∀ t' : St,
        f ((List.range (fin - start)).foldl (fun s k =>
          adagradElem hp (grad (group * post + i)) (ind (start + k) * post + i) s) t') = f t' := by
    intro f hf i hi t'
    simp only [List.mem_range] at hi
    refine foldl_fix_proj f _ ?_ t'
    intro k hk t''
    simp only [List.mem_range] at hk
    exact hf _ (hq k hk i hi) _ t''
  constructor
  · refine foldl_fix_proj (fun t => t.param q) _ ?_ t
    exact hInner (fun t => t.param q) fun p hpq gv t' => by
      simp only [adagradElem]
      exact Function.update_noteq (Ne.symm hpq) _ _
  · refine foldl_fix_proj (fun t => t.mom q) _ ?_ t
    exact hInner (fun t => t.mom q) fun p hpq gv t' => by
      simp only [adagradElem]
      exact Function.update_noteq (Ne.symm hpq) _ _

theorem exactSegBody_wout (hp : Hyper) (post : ℕ) (ind : ℕ → ℕ)
    (grad : ℕ → ℚ) (group start fin qo : ℕ) (t : St) :
    (exactSegBody hp post ind grad group start fin t).wout qo = t.wout qo := by
  unfold exactSegBody
  refine foldl_fix_proj (fun t => t.wout qo) _ ?_ t
  intro i _ t'
  refine foldl_fix_proj (fun t => t.wout qo) _ ?_ t'
  intro k _ t''
  rfl

theorem rowwiseSegBody_wout (hp : Hyper) (post : ℕ) (ind : ℕ → ℕ)
    (grad : ℕ → ℚ) (group start fin qo : ℕ) (t : St) :
    (rowwiseSegBody hp post ind grad group start fin t).wout qo = t.wout qo := by
  unfold rowwiseSegBody
  refine foldl_fix_proj (fun t => t.wout qo) _ ?_ t
  intro k _ t'
  simp only [rowwiseMemberBody_closed]

theorem weightedSegBody_fix (hp : Hyper) (post : ℕ) (ind : ℕ → ℕ)
    (grad weights : ℕ → ℚ) (group start fin : ℕ) (q : ℕ)
    (hq : ∀ k, k < fin - start → ∀ i, i < post → ind (start + k) * post + i ≠ q)
    (t : St) :
    (weightedSegBody hp post ind grad weights group start fin t).param q =
        t.param q ∧
      (weightedSegBody hp post ind grad weights group start fin t).mom q =
        t.mom q := by
  unfold weightedSegBody
  constructor
  · refine foldl_fix_proj (fun t => t.param q) _ ?_ t
    intro k hk t'
    simp only [List.mem_range] at hk
    simp only [weightedMemberBody_closed]
    exact if_neg (notWindow_of_noPos (hq k hk))
  · refine foldl_fix_proj (fun t => t.mom q) _ ?_ t
    intro k hk t'
    simp only [List.mem_range] at hk
    simp only [weightedMemberBody_closed]
    exact if_neg (notWindow_of_noPos (hq k hk))

theorem rowwiseSegBody_fix_param (hp : Hyper) (post : ℕ) (ind : ℕ → ℕ)
    (grad : ℕ → ℚ) (group start fin : ℕ) (q : ℕ)
    (hq : ∀ k, k < fin - start → ∀ i, i < post → ind (start + k) * post + i ≠ q)
    (t : St) :
    (rowwiseSegBody hp post ind grad group start fin t).param q = t.param q := by
  unfold rowwiseSegBody
  refine foldl_fix_proj (fun t => t.param q) _ ?_ t
  intro k hk t'
  simp only [List.mem_range] at hk
  simp only [rowwiseMemberBody_closed]
  exact if_neg (notWindow_of_noPos (hq k hk))

theorem rowwiseSegBody_fix_mom (hp : Hyper) (post : ℕ) (ind : ℕ → ℕ)
    (grad : ℕ → ℚ) (group start fin : ℕ) (qm : ℕ)
    (hqm : ∀ k, k < fin - start → ind (start + k) ≠ qm) (t : St) :
    (rowwiseSegBody hp post ind grad group start fin t).mom qm = t.mom qm := by
  unfold rowwiseSegBody
  refine foldl_fix_proj (fun t => t.mom qm) _ ?_ t
  intro k hk t'
  simp only [List.mem_range] at hk
  simp only [rowwiseMemberBody_closed]
  exact Function.update_noteq (Ne.symm (hqm k hk)) _ _

theorem rowwiseWeightedSegBody_fix_param (hp : Hyper) (post : ℕ) (ind : ℕ → ℕ)
    (grad weights : ℕ → ℚ) (group start fin : ℕ) (q : ℕ)
    (hq : ∀ k, k < fin - start → ∀ i, i < post → ind (start + k) * post + i ≠ q)
    (t : St) :
    (rowwiseWeightedSegBody hp post ind grad weights group start fin t).param q =
      t.param q := by
  unfold rowwiseWeightedSegBody
  refine foldl_fix_proj (fun t => t.param q) _ ?_ t
  intro k hk t'
  simp only [List.mem_range] at hk
  simp only [rowwiseWeightedMemberBody_closed]
  exact if_neg (notWindow_of_noPos (hq k hk))

theorem rowwiseWeightedSegBody_fix_mom (hp : Hyper) (post : ℕ) (ind : ℕ → ℕ)
    (grad weights : ℕ → ℚ) (group start fin : ℕ) (qm : ℕ)
    (hqm : ∀ k, k < fin - start → ind (start + k) ≠ qm) (t : St) :
    (rowwiseWeightedSegBody hp post ind grad weights group start fin t).mom qm =
      t.mom qm := by
  unfold rowwiseWeightedSegBody
  refine foldl_fix_proj (fun t => t.mom qm) _ ?_ t
  intro k hk t'
  simp only [List.mem_range] at hk
  simp only [rowwiseWeightedMemberBody_closed]
  exact Function.update_noteq (Ne.symm (hqm k hk)) _ _

theorem getD_mem {l : List ℕ} {i : ℕ} (h : i < l.length) : l.getD i 0 ∈ l := by
  rw [List.getD_eq_getElem?_getD, List.getElem?_eq_getElem h, Option.getD_some]
  exact List.getElem_mem h

theorem untouched_noPos {indices : List ℕ} {r post start fin : ℕ}
    (hr : r ∉ indices) (hfin : fin ≤ indices.length) {i : ℕ} (hi : i < post) :
    ∀ k, k < fin - start → ∀ i', i' < post →
      indices.getD (start + k) 0 * post + i' ≠ r * post + i := by
  intro k hk i' hi' heq
  obtain ⟨hrow, _⟩ := rowPos_inj hi' hi heq
  exact hr (hrow ▸ getD_mem (by omega))

theorem untouched_noRow {indices : List ℕ} {r start fin : ℕ}
    (hr : r ∉ indices) (hfin : fin ≤ indices.length) :
    ∀ k, k < fin - start → indices.getD (start + k) 0 ≠ r := by
  intro k hk heq
  exact hr (heq ▸ getD_mem (by omega))

/-- C10: a call to any of the four operators leaves every parameter-table
row and every accumulator entry untouched whose row id r does not occur in
the index array: every kernel write addresses the tables through positions
of the form index * post + element with the index read from the Indices
input (for the row-wise kernels the bare index addresses the row
accumulator), plus the weight-gradient output; the unweighted operators
leave the weight-gradient table untouched altogether. -/
theorem untouched_rows_unchanged (hp : Hyper) (post : ℕ)
    (lengths indices : List ℕ) (grad weights : ℕ → ℚ) (s : St) (r : ℕ)
    (hr : r ∉ indices) :
    (∀ s', CUDASparseAdagradFusedWithSparseLengthsSumGradientOp hp post lengths
        indices grad s = some s' →
      (∀ i, i < post → s'.param (r * post + i) = s.param (r * post + i) ∧
        s'.mom (r * post + i) = s.mom (r * post + i)) ∧ s'.wout = s.wout) ∧
    (∀ s' out, CUDASparseAdagradFusedWithSparseLengthsWeightedSumGradientOp hp
        post lengths indices weights grad s = some (s', out) →
      ∀ i, i < post → s'.param (r * post + i) = s.param (r * post + i) ∧
        s'.mom (r * post + i) = s.mom (r * post + i)) ∧
    (∀ s', CUDARowWiseSparseAdagradFusedWithSparseLengthsSumGradientOp hp post
        lengths indices grad s = some s' →
      (∀ i, i < post → s'.param (r * post + i) = s.param (r * post + i)) ∧
        s'.mom r = s.mom r ∧ s'.wout = s.wout) ∧
    (∀ s' out,
      CUDARowWiseSparseAdagradFusedWithSparseLengthsWeightedSumGradientOp hp
        post lengths indices weights grad s = some (s', out) →
      (∀ i, i < post → s'.param (r * post + i) = s.param (r * post + i)) ∧
        s'.mom r = s.mom r) := by
  refine ⟨?_, ?_, ?_, ?_⟩
  · intro s' hop
    unfold CUDASparseAdagradFusedWithSparseLengthsSumGradientOp at hop
    by_cases h0 : indices.length = 0
    · rw [if_pos h0] at hop
      obtain rfl := Option.some.inj hop
      exact ⟨fun i hi => ⟨rfl, rfl⟩, rfl⟩
    · rw [if_neg h0] at hop
      by_cases h1 : lengths.length = 0
      · rw [if_pos h1] at hop
        obtain rfl := Option.some.inj hop
        exact ⟨fun i hi => ⟨rfl, rfl⟩, rfl⟩
      · rw [if_neg h1] at hop
        have hstep : ∀ g t u,
            sparse_adagrad_fused_length_sum_gradient_kernel hp indices.length
              post (inclusive_scan_wrapper lengths)
              (fun line => indices.getD line 0) grad g t = some u →
            ((∀ i, i < post →
              t.param (r * post + i) = s.param (r * post + i) ∧
              t.mom (r * post + i) = s.mom (r * post + i)) ∧
              ∀ qo, t.wout qo = s.wout qo) →
            ((∀ i, i < post →
              u.param (r * post + i) = s.param (r * post + i) ∧
              u.mom (r * post + i) = s.mom (r * post + i)) ∧
              ∀ qo, u.wout qo = s.wout qo) := by
          intro g t u hb hPhi
          unfold sparse_adagrad_fused_length_sum_gradient_kernel at hb
          by_cases hc : segStart (inclusive_scan_wrapper lengths) g ≤
              indices.length ∧
              segEnd (inclusive_scan_wrapper lengths) g ≤ indices.length
          · rw [if_pos hc] at hb
            obtain rfl := Option.some.inj hb
            refine ⟨fun i hi => ?_, fun qo => ?_⟩
            · have hfix := exactSegBody_fix hp post
                (fun line => indices.getD line 0) grad g
                (segStart (inclusive_scan_wrapper lengths) g)
                (segEnd (inclusive_scan_wrapper lengths) g) (r * post + i)
                (untouched_noPos hr hc.2 hi) t
              exact ⟨hfix.1.trans (hPhi.1 i hi).1, hfix.2.trans (hPhi.1 i hi).2⟩
            · exact (exactSegBody_wout hp post _ grad g _ _ qo t).trans (hPhi.2 qo)
          · rw [if_neg hc] at hb
            cases hb
        have hres := launch_preserve hstep lengths.length s s' hop
          ⟨fun i hi => ⟨rfl, rfl⟩, fun qo => rfl⟩
        exact ⟨hres.1, funext hres.2⟩
  · intro s' out hop
    unfold CUDASparseAdagradFusedWithSparseLengthsWeightedSumGradientOp at hop
    by_cases h0 : indices.length = 0
    · rw [if_pos h0] at hop
      obtain rfl := congrArg Prod.fst (Option.some.inj hop)
      exact fun i hi => ⟨rfl, rfl⟩
    · rw [if_neg h0] at hop
      by_cases h1 : lengths.length = 0
      · rw [if_pos h1] at hop
        obtain rfl := congrArg Prod.fst (Option.some.inj hop)
        exact fun i hi => ⟨rfl, rfl⟩
      · rw [if_neg h1] at hop
        rw [Option.map_eq_some'] at hop
        obtain ⟨s1, hlaunch, heq⟩ := hop
        obtain rfl := congrArg Prod.fst heq
        have hstep : ∀ g t u,
            sparse_adagrad_fused_length_weighted_sum_gradient_kernel hp
              indices.length post (inclusive_scan_wrapper lengths)
              (fun line => indices.getD line 0) grad weights g t = some u →
            (∀ i, i < post →
              t.param (r * post + i) = s.param (r * post + i) ∧
              t.mom (r * post + i) = s.mom (r * post + i)) →
            (∀ i, i < post →
              u.param (r * post + i) = s.param (r * post + i) ∧
              u.mom (r * post + i) = s.mom (r * post + i)) := by
          intro g t u hb hPhi
          unfold sparse_adagrad_fused_length_weighted_sum_gradient_kernel at hb
          by_cases hc : segStart (inclusive_scan_wrapper lengths) g ≤
              indices.length ∧
              segEnd (inclusive_scan_wrapper lengths) g ≤ indices.length
          · rw [if_pos hc] at hb
            obtain rfl := Option.some.inj hb
            intro i hi
            have hfix := weightedSegBody_fix hp post
              (fun line => indices.getD line 0) grad weights g
              (segStart (inclusive_scan_wrapper lengths) g)
              (segEnd (inclusive_scan_wrapper lengths) g)
              (r * post + i) (untouched_noPos hr hc.2 hi) t
            exact ⟨hfix.1.trans (hPhi i hi).1, hfix.2.trans (hPhi i hi).2⟩
          · rw [if_neg hc] at hb
            cases hb
        exact launch_preserve hstep lengths.length s s1 hlaunch
          (fun i hi => ⟨rfl, rfl⟩)
  · intro s' hop
    unfold CUDARowWiseSparseAdagradFusedWithSparseLengthsSumGradientOp at hop
    by_cases h0 : indices.length = 0
    · rw [if_pos h0] at hop
      obtain rfl := Option.some.inj hop
      exact ⟨fun i hi => rfl, rfl, rfl⟩
    · rw [if_neg h0] at hop
      by_cases h1 : lengths.length = 0
      · rw [if_pos h1] at hop
        obtain rfl := Option.some.inj hop
        exact ⟨fun i hi => rfl, rfl, rfl⟩
      · rw [if_neg h1] at hop
        have hstep : ∀ g t u,
            rowwise_sparse_adagrad_fused_length_sum_gradient_kernel hp
              indices.length post (inclusive_scan_wrapper lengths)
              (fun line => indices.getD line 0) grad g t = some u →
            ((∀ i, i < post →
              t.param (r * post + i) = s.param (r * post + i)) ∧
              t.mom r = s.mom r ∧ ∀ qo, t.wout qo = s.wout qo) →
            ((∀ i, i < post →
              u.param (r * post + i) = s.param (r * post + i)) ∧
              u.mom r = s.mom r ∧ ∀ qo, u.wout qo = s.wout qo) := by
          intro g t u hb hPhi
          unfold rowwise_sparse_adagrad_fused_length_sum_gradient_kernel at hb
          by_cases hc : segStart (inclusive_scan_wrapper lengths) g ≤
              indices.length ∧
              segEnd (inclusive_scan_wrapper lengths) g ≤ indices.length
          · rw [if_pos hc] at hb
            obtain rfl := Option.some.inj hb
            refine ⟨fun i hi => ?_, ?_, fun qo => ?_⟩
            · exact (rowwiseSegBody_fix_param hp post
                (fun line => indices.getD line 0) grad g
                (segStart (inclusive_scan_wrapper lengths) g)
                (segEnd (inclusive_scan_wrapper lengths) g) (r * post + i)
                (untouched_noPos hr hc.2 hi) t).trans (hPhi.1 i hi)
            · exact (rowwiseSegBody_fix_mom hp post
                (fun line => indices.getD line 0) grad g
                (segStart (inclusive_scan_wrapper lengths) g)
                (segEnd (inclusive_scan_wrapper lengths) g) r
                (untouched_noRow hr hc.2) t).trans hPhi.2.1
            · exact (rowwiseSegBody_wout hp post _ grad g _ _ qo t).trans
                (hPhi.2.2 qo)
          · rw [if_neg hc] at hb
            cases hb
        have hres := launch_preserve hstep lengths.length s s' hop
          ⟨fun i hi => rfl, rfl, fun qo => rfl⟩
        exact ⟨hres.1, hres.2.1, funext hres.2.2⟩
  · intro s' out hop
    unfold CUDARowWiseSparseAdagradFusedWithSparseLengthsWeightedSumGradientOp
      at hop
    by_cases h0 : indices.length = 0
    · rw [if_pos h0] at hop
      obtain rfl := congrArg Prod.fst (Option.some.inj hop)
      exact ⟨fun i hi => rfl, rfl⟩
    · rw [if_neg h0] at hop
      by_cases h1 : lengths.length = 0
      · rw [if_pos h1] at hop
        obtain rfl := congrArg Prod.fst (Option.some.inj hop)
        exact ⟨fun i hi => rfl, rfl⟩
      · rw [if_neg h1] at hop
        rw [Option.map_eq_some'] at hop
        obtain ⟨s1, hlaunch, heq⟩ := hop
        obtain rfl := congrArg Prod.fst heq
        have hstep : ∀ g t u,
            rowwise_sparse_adagrad_fused_length_weighted_sum_gradient_kernel hp
              indices.length post (inclusive_scan_wrapper lengths)
              (fun line => indices.getD line 0) grad weights g t = some u →
            ((∀ i, i < post →
              t.param (r * post + i) = s.param (r * post + i)) ∧
              t.mom r = s.mom r) →
            ((∀ i, i < post →
              u.param (r * post + i) = s.param (r * post + i)) ∧
              u.mom r = s.mom r) := by
          intro g t u hb hPhi
          unfold rowwise_sparse_adagrad_fused_length_weighted_sum_gradient_kernel
            at hb
          by_cases hc : segStart (inclusive_scan_wrapper lengths) g ≤
              indices.length ∧
              segEnd (inclusive_scan_wrapper lengths) g ≤ indices.length
          · rw [if_pos hc] at hb
            obtain rfl := Option.some.inj hb
            refine ⟨fun i hi => ?_, ?_⟩
            · exact (rowwiseWeightedSegBody_fix_param hp post
                (fun line => indices.getD line 0) grad weights g
                (segStart (inclusive_scan_wrapper lengths) g)
                (segEnd (inclusive_scan_wrapper lengths) g) (r * post + i)
                (untouched_noPos hr hc.2 hi) t).trans (hPhi.1 i hi)
            · exact (rowwiseWeightedSegBody_fix_mom hp post
                (fun line => indices.getD line 0) grad weights g
                (segStart (inclusive_scan_wrapper lengths) g)
                (segEnd (inclusive_scan_wrapper lengths) g) r
                (untouched_noRow hr hc.2) t).trans hPhi.2
          · rw [if_neg hc] at hb
            cases hb
        exact launch_preserve hstep lengths.length s s1 hlaunch
          ⟨fun i hi => rfl, rfl⟩

theorem launch_zero (block : ℕ → St → Option St) (s : St) :
    launch 0 block s = some s := rfl

theorem rowwiseOp_single (hp : Hyper) (post ix : ℕ) (grad : ℕ → ℚ) (s : St) :
    CUDARowWiseSparseAdagradFusedWithSparseLengthsSumGradientOp hp post [1]
      [ix] grad s = some (rowwiseMemberBody hp post grad 0 ix s) := by
  unfold CUDARowWiseSparseAdagradFusedWithSparseLengthsSumGradientOp
  rw [if_neg (by simp), if_neg (by simp)]
  have hL : ([1] : List ℕ).length = 0 + 1 := rfl
  rw [hL, launch_succ, launch_zero, Option.some_bind]
  unfold rowwise_sparse_adagrad_fused_length_sum_gradient_kernel
  have hks : segStart (inclusive_scan_wrapper [1]) 0 = 0 := rfl
  have hke : segEnd (inclusive_scan_wrapper [1]) 0 = 1 := rfl
  rw [if_pos (by simp [hks, hke])]
  congr 1

theorem weightedOp_single (hp : Hyper) (post ix : ℕ) (weights grad : ℕ → ℚ)
    (s : St) :
    CUDASparseAdagradFusedWithSparseLengthsWeightedSumGradientOp hp post [1]
      [ix] weights grad s =
    some (weightedMemberBody hp post (weights 0) grad 0 ix 0 s,
      [(weightedMemberBody hp post (weights 0) grad 0 ix 0 s).wout 0]) := by
  unfold CUDASparseAdagradFusedWithSparseLengthsWeightedSumGradientOp
  rw [if_neg (by simp), if_neg (by simp)]
  have hL : ([1] : List ℕ).length = 0 + 1 := rfl
  rw [hL, launch_succ, launch_zero, Option.some_bind]
  unfold sparse_adagrad_fused_length_weighted_sum_gradient_kernel
  have hks : segStart (inclusive_scan_wrapper [1]) 0 = 0 := rfl
  have hke : segEnd (inclusive_scan_wrapper [1]) 0 = 1 := rfl
  rw [if_pos (by simp [hks, hke])]
  rw [Option.map_some']
  have hseg : weightedSegBody hp post (fun line => ([ix] : List ℕ).getD line 0)
      grad weights 0 (segStart (inclusive_scan_wrapper [1]) 0)
      (segEnd (inclusive_scan_wrapper [1]) 0) s =
      weightedMemberBody hp post (weights 0) grad 0 ix 0 s := by
    rw [hks, hke]
    unfold weightedSegBody
    have hrange : List.range 1 = [0] := rfl
    simp only [Nat.sub_zero, hrange, List.foldl_cons, List.foldl_nil,
      Nat.add_zero, Nat.zero_add, Nat.zero_sub, List.getD_cons_zero]
  rw [hseg]
  rfl

theorem rowwiseWeightedOp_single (hp : Hyper) (post ix : ℕ)
    (weights grad : ℕ → ℚ) (s : St) :
    CUDARowWiseSparseAdagradFusedWithSparseLengthsWeightedSumGradientOp hp post
      [1] [ix] weights grad s =
    some (rowwiseWeightedMemberBody hp post (weights 0) grad 0 ix 0 s,
      [(rowwiseWeightedMemberBody hp post (weights 0) grad 0 ix 0 s).wout 0]) := by
  unfold CUDARowWiseSparseAdagradFusedWithSparseLengthsWeightedSumGradientOp
  rw [if_neg (by simp), if_neg (by simp)]
  have hL : ([1] : List ℕ).length = 0 + 1 := rfl
  rw [hL, launch_succ, launch_zero, Option.some_bind]
  unfold rowwise_sparse_adagrad_fused_length_weighted_sum_gradient_kernel
  have hks : segStart (inclusive_scan_wrapper [1]) 0 = 0 := rfl
  have hke : segEnd (inclusive_scan_wrapper [1]) 0 = 1 := rfl
  rw [if_pos (by simp [hks, hke])]
  rw [Option.map_some']
  have hseg : rowwiseWeightedSegBody hp post
      (fun line => ([ix] : List ℕ).getD line 0) grad weights 0
      (segStart (inclusive_scan_wrapper [1]) 0)
      (segEnd (inclusive_scan_wrapper [1]) 0) s =
      rowwiseWeightedMemberBody hp post (weights 0) grad 0 ix 0 s := by
    rw [hks, hke]
    unfold rowwiseWeightedSegBody
    have hrange : List.range 1 = [0] := rfl
    simp only [Nat.sub_zero, hrange, List.foldl_cons, List.foldl_nil,
      Nat.add_zero, Nat.zero_add, Nat.zero_sub, List.getD_cons_zero]
  rw [hseg]
  rfl

/-- C4: for the row-wise unweighted operator in the single-segment,
single-member case, the touched row's scalar accumulator with prior value
a = s.mom ix becomes a + (1 / D) * (sum over the row's D elements of the
squared effective gradient grad + weight_decay * param), and every element
of the row is then incremented by its effective gradient times the single
scalar step lr / (sqrtf updated_accumulator + epsilon), computed after the
accumulator update is visible. -/
theorem rowwise_accumulator_update (hp : Hyper) (post ix : ℕ) (grad : ℕ → ℚ)
    (s : St) :
    ∀ s', CUDARowWiseSparseAdagradFusedWithSparseLengthsSumGradientOp hp post
        [1] [ix] grad s = some s' →
      s'.mom ix = s.mom ix +
        (∑ i ∈ Finset.range post,
          (grad i + hp.weight_decay * s.param (ix * post + i)) *
            (grad i + hp.weight_decay * s.param (ix * post + i))) / (post : ℚ) ∧
      ∀ i, i < post →
        s'.param (ix * post + i) = s.param (ix * post + i) +
          (grad i + hp.weight_decay * s.param (ix * post + i)) *
            (hp.lr / (hp.sqrtf (s'.mom ix) + hp.epsilon)) := by
  intro s' hop
  rw [rowwiseOp_single] at hop
  obtain rfl := Option.some.inj hop
  have hmom : (rowwiseMemberBody hp post grad 0 ix s).mom ix =
      s.mom ix + rowSumSquares hp post grad 0 ix s.param / (post : ℚ) := by
    simp only [rowwiseMemberBody_closed, Function.update_same]
  constructor
  · rw [hmom, rowSumSquares_eq_sum]
    simp
  · intro i hi
    rw [hmom]
    simp only [rowwiseMemberBody_closed]
    rw [if_pos (⟨by omega, by omega⟩ :
      ix * post ≤ ix * post + i ∧ ix * post + i < ix * post + post)]
    rw [Nat.add_sub_cancel_left]
    simp

/-- C5: in both weighted variants, the weight-gradient output produced for
a single member equals the inner product of the parameter row as stored
before that member's parameter update with the segment's incoming gradient
row.  The right-hand side does not mention the weight array at all, and the
theorem holds for every weights input, so the value is independent of the
member's weight w. -/
theorem weight_gradient_is_pre_update_inner_product (hp : Hyper)
    (post ix : ℕ) (weights grad : ℕ → ℚ) (s : St) :
    (∀ s' out, CUDASparseAdagradFusedWithSparseLengthsWeightedSumGradientOp hp
        post [1] [ix] weights grad s = some (s', out) →
      out = [∑ i ∈ Finset.range post, grad i * s.param (ix * post + i)]) ∧
    (∀ s' out,
      CUDARowWiseSparseAdagradFusedWithSparseLengthsWeightedSumGradientOp hp
        post [1] [ix] weights grad s = some (s', out) →
      out = [∑ i ∈ Finset.range post, grad i * s.param (ix * post + i)]) := by
  constructor
  · intro s' out hop
    rw [weightedOp_single] at hop
    have h := Option.some.inj hop
    rw [Prod.mk.injEq] at h
    obtain ⟨-, rfl⟩ := h
    simp only [weightedMemberBody_closed, Function.update_same]
    simp
  · intro s' out hop
    rw [rowwiseWeightedOp_single] at hop
    have h := Option.some.inj hop
    rw [Prod.mk.injEq] at h
    obtain ⟨-, rfl⟩ := h
    simp only [rowwiseWeightedMemberBody_closed, Function.update_same]
    simp

/-- C7: for one member of the weighted row-wise kernel with weight w, the
increment entering the row's scalar accumulator is exactly the row energy
(1 / D) * (sum of squared unweighted effective gradients over the row)
multiplied by w * w, and every element is then updated by the weighted
gradient w * grad + weight_decay * param times the shared step
lr / (sqrtf accumulator + epsilon), where the accumulator is read after the
row update. -/
theorem rowwise_weighted_member_update (hp : Hyper) (post : ℕ) (w : ℚ)
    (grad : ℕ → ℚ) (g r line : ℕ) (s : St) :
    (rowwiseWeightedMemberBody hp post w grad g r line s).mom r =
      s.mom r + (∑ i ∈ Finset.range post,
        (grad (g * post + i) + hp.weight_decay * s.param (r * post + i)) *
          (grad (g * post + i) + hp.weight_decay * s.param (r * post + i))) /
        (post : ℚ) * w * w ∧
    ∀ i, i < post →
      (rowwiseWeightedMemberBody hp post w grad g r line s).param (r * post + i) =
        (w * grad (g * post + i) + hp.weight_decay * s.param (r * post + i)) *
          (hp.lr / (hp.sqrtf
            ((rowwiseWeightedMemberBody hp post w grad g r line s).mom r) +
            hp.epsilon)) + s.param (r * post + i) := by
  have hmom : (rowwiseWeightedMemberBody hp post w grad g r line s).mom r =
      s.mom r + rowSumSquares hp post grad g r s.param / (post : ℚ) * w * w := by
    simp only [rowwiseWeightedMemberBody_closed, Function.update_same]
  constructor
  · rw [hmom, rowSumSquares_eq_sum]
  · intro i hi
    rw [hmom]
    simp only [rowwiseWeightedMemberBody_closed]
    rw [if_pos (⟨by omega, by omega⟩ :
      r * post ≤ r * post + i ∧ r * post + i < r * post + post)]
    rw [Nat.add_sub_cancel_left]

/-- C8: in both weighted kernel variants, the scalar weight applied to the
member at global position line = start + k within a segment whose start
offset is start is read segment-relatively at position line - start = k
(not at the global position line), while the member's weight-gradient
result is written at the global position line.  Hence the per-segment work
can be re-expressed with weights indexed by the member offset k, only
weight positions below the segment length are ever read, and the
weight-gradient output outside the segment's global member range is left
untouched. -/
theorem weights_read_segment_relative (hp : Hyper) (post : ℕ)
    (indices : ℕ → ℕ) (grad weights : ℕ → ℚ) (group start fin : ℕ) (s : St) :
    (weightedSegBody hp post indices grad weights group start fin s =
      (List.range (fin - start)).foldl (fun s k =>
        weightedMemberBody hp post (weights k) grad group
          (indices (start + k)) (start + k) s) s) ∧
    (rowwiseWeightedSegBody hp post indices grad weights group start fin s =
      (List.range (fin - start)).foldl (fun s k =>
        rowwiseWeightedMemberBody hp post (weights k) grad group
          (indices (start + k)) (start + k) s) s) ∧
    (∀ weights2 : ℕ → ℚ, (∀ j, j < fin - start → weights2 j = weights j) →
      weightedSegBody hp post indices grad weights2 group start fin s =
        weightedSegBody hp post indices grad weights group start fin s ∧
      rowwiseWeightedSegBody hp post indices grad weights2 group start fin s =
        rowwiseWeightedSegBody hp post indices grad weights group start fin s) ∧
    (∀ q, q < start ∨ fin ≤ q →
      (weightedSegBody hp post indices grad weights group start fin s).wout q =
        s.wout q ∧
      (rowwiseWeightedSegBody hp post indices grad weights group start fin
        s).wout q = s.wout q) := by
  have hcan : ∀ k : ℕ, start + k - start = k := fun k => by omega
  refine ⟨?_, ?_, ?_, ?_⟩
  · unfold weightedSegBody
    simp only [hcan]
  · unfold rowwiseWeightedSegBody
    simp only [hcan]
  · intro weights2 hw
    constructor
    · unfold weightedSegBody
      refine foldl_congr_mem ?_ s
      intro k hk c
      simp only [List.mem_range] at hk
      rw [hcan, hw k hk]
    · unfold rowwiseWeightedSegBody
      refine foldl_congr_mem ?_ s
      intro k hk c
      simp only [List.mem_range] at hk
      rw [hcan, hw k hk]
  · intro q hq
    constructor
    · unfold weightedSegBody
      refine foldl_fix_proj (fun t => t.wout q) _ ?_ s
      intro k hk t
      simp only [List.mem_range] at hk
      simp only [weightedMemberBody_closed]
      exact Function.update_noteq (by omega) _ _
    · unfold rowwiseWeightedSegBody
      refine foldl_fix_proj (fun t => t.wout q) _ ?_ s
      intro k hk t
      simp only [List.mem_range] at hk
      simp only [rowwiseWeightedMemberBody_closed]
      exact Function.update_noteq (by omega) _ _

/-- Concrete instantiation of the order-independence theorem: a two-segment
batch with distinct indices, processed in reversed member order. -/
theorem fused_kernels_match_sequential_reference_witness :
    exactSeqRef hpSample 1 (fun l => l) gradSample [(1, 1), (0, 0)] stSample =
      exactRun hpSample 1 (inclusive_scan_wrapper [1, 1]) (fun l => l)
        gradSample 2 stSample :=
  (fused_kernels_match_sequential_reference hpSample 1 [1, 1] (fun l => l)
    gradSample weightsSample stSample (fun _ _ _ _ h => h) [(1, 1), (0, 0)]
    (by decide)).1

/-- Concrete instantiation of the single-member exact update. -/
theorem exact_single_member_update_witness :
    hpSample.weight_decay = 0 ∧
    CUDASparseAdagradFusedWithSparseLengthsSumGradientOp hpSample 1 [1] [0]
        gradSample stSample =
      some { stSample with
        mom := Function.update stSample.mom 0
          (stSample.mom 0 + gradSample 0 * gradSample 0),
        param := Function.update stSample.param 0 (stSample.param 0 +
          hpSample.lr * gradSample 0 /
            (hpSample.sqrtf (stSample.mom 0 + gradSample 0 * gradSample 0) +
              hpSample.epsilon)) } :=
  ⟨rfl, (exact_single_member_update hpSample rfl 0 gradSample stSample).1⟩

/-- Concrete instantiation of the offset-builder specification. -/
theorem offset_builder_is_inclusive_prefix_sum_witness :
    (inclusive_scan_wrapper [1, 2, 0]).length = ([1, 2, 0] : List ℕ).length :=
  (offset_builder_is_inclusive_prefix_sum [1, 2, 0]).1

/-- Concrete instantiation of the row-wise accumulator update. -/
theorem rowwise_accumulator_update_witness :
    (rowwiseMemberBody hpSample 1 gradSample 0 0 stSample).mom 0 =
      stSample.mom 0 + (∑ i ∈ Finset.range 1,
        (gradSample i + hpSample.weight_decay * stSample.param (0 * 1 + i)) *
          (gradSample i + hpSample.weight_decay * stSample.param (0 * 1 + i))) /
        ((1 : ℕ) : ℚ) :=
  (rowwise_accumulator_update hpSample 1 0 gradSample stSample
    (rowwiseMemberBody hpSample 1 gradSample 0 0 stSample)
    (rowwiseOp_single hpSample 1 0 gradSample stSample)).1

/-- Concrete instantiation of the weight-gradient inner-product property. -/
theorem weight_gradient_is_pre_update_inner_product_witness :
    ([(weightedMemberBody hpSample 1 (weightsSample 0) gradSample 0 0 0
        stSample).wout 0] : List ℚ) =
      [∑ i ∈ Finset.range 1, gradSample i * stSample.param (0 * 1 + i)] :=
  (weight_gradient_is_pre_update_inner_product hpSample 1 0 weightsSample
    gradSample stSample).1
    (weightedMemberBody hpSample 1 (weightsSample 0) gradSample 0 0 0 stSample)
    [(weightedMemberBody hpSample 1 (weightsSample 0) gradSample 0 0 0
      stSample).wout 0]
    (weightedOp_single hpSample 1 0 weightsSample gradSample stSample)

/-- Concrete instantiation of the assertion characterization. -/
theorem kernel_assertions_check_offsets_only_witness :
    (launch 1 (sparse_adagrad_fused_length_sum_gradient_kernel hpSample 1 1
      (inclusive_scan_wrapper [1]) (fun l => l) gradSample) stSample).isSome ↔
    ∀ g, g < 1 → segStart (inclusive_scan_wrapper [1]) g ≤ 1 ∧
      segEnd (inclusive_scan_wrapper [1]) g ≤ 1 :=
  (kernel_assertions_check_offsets_only hpSample 1 1 1
    (inclusive_scan_wrapper [1]) (fun l => l) gradSample weightsSample
    stSample).1

/-- Concrete instantiation of the weighted row-wise member update. -/
theorem rowwise_weighted_member_update_witness :
    (rowwiseWeightedMemberBody hpSample 1 2 gradSample 0 0 0 stSample).mom 0 =
      stSample.mom 0 + (∑ i ∈ Finset.range 1,
        (gradSample (0 * 1 + i) +
          hpSample.weight_decay * stSample.param (0 * 1 + i)) *
        (gradSample (0 * 1 + i) +
          hpSample.weight_decay * stSample.param (0 * 1 + i))) /
        ((1 : ℕ) : ℚ) * 2 * 2 :=
  (rowwise_weighted_member_update hpSample 1 2 gradSample 0 0 0 stSample).1

/-- Concrete instantiation of the segment-relative weight addressing. -/
theorem weights_read_segment_relative_witness :
    weightedSegBody hpSample 1 (fun l => l) gradSample weightsSample 0 0 1
        stSample =
      (List.range (1 - 0)).foldl (fun s k =>
        weightedMemberBody hpSample 1 (weightsSample k) gradSample 0 (0 + k)
          (0 + k) s) stSample :=
  (weights_read_segment_relative hpSample 1 (fun l => l) gradSample
    weightsSample 0 0 1 stSample).1

/-- Concrete instantiation of the zero-length no-op. -/
theorem zero_length_batch_is_noop_witness :
    ((([0, 0] : List ℕ) = [] ∨ ∀ l ∈ ([0, 0] : List ℕ), l = 0) ∧
      ([] : List ℕ).length = ([0, 0] : List ℕ).sum) ∧
    CUDASparseAdagradFusedWithSparseLengthsSumGradientOp hpSample 1 [0, 0] []
      gradSample stSample = some stSample :=
  ⟨⟨Or.inr (by decide), by decide⟩,
    (zero_length_batch_is_noop hpSample 1 [0, 0] [] gradSample weightsSample
      stSample (Or.inr (by decide)) (by decide)).1⟩

/-- Concrete instantiation of the frame property: row 5 is untouched by a
batch whose only index is 0. -/
theorem untouched_rows_unchanged_witness :
    (∀ i, i < 1 →
      (adagradElem hpSample (gradSample 0) 0 stSample).param (5 * 1 + i) =
          stSample.param (5 * 1 + i) ∧
        (adagradElem hpSample (gradSample 0) 0 stSample).mom (5 * 1 + i) =
          stSample.mom (5 * 1 + i)) ∧
      (adagradElem hpSample (gradSample 0) 0 stSample).wout = stSample.wout :=
  (untouched_rows_unchanged hpSample 1 [1] [0] gradSample weightsSample
    stSample 5 (by decide)).1
    (adagradElem hpSample (gradSample 0) 0 stSample) rfl

end AdagradFused
